import Mathlib

/-!
Verification of the SRT-aware batching and reconstruction engine of
`src/app/srtxlate.py` (repository `dexusno/srtxlate`).

Lines and texts are modelled as `List Char` (one `Char` per Python code
point).  Python string primitives (`strip`, `split`, `replace`, `find`,
`rfind`, slicing) are embedded as executable Lean functions on `List Char`.
Whitespace and digit classification are restricted to the ASCII range,
which is exact for the characters these functions are applied to in the
program (SRT indices, timecodes and the separators the code introduces).
Unicode NFC normalisation (`unicodedata.normalize("NFC", ·)`) is kept
abstract: every definition that needs it takes an `nfc : List Char → List
Char` parameter; concrete evaluations instantiate it with `id`, which is
the behaviour of NFC on pure-ASCII input.

Functions whose Python originals recurse on a non-structural measure are
written with an explicit fuel argument (initialised to the input length,
which always suffices), so that every definition reduces inside the
kernel; fuel-independence lemmas recover the natural unfolding equations
where proofs need them.
-/

namespace Srtxlate

abbrev Str := List Char

theorem dropWhile_len_le (p : Char → Bool) (l : Str) :
    (l.dropWhile p).length ≤ l.length :=
  (List.dropWhile_suffix p).length_le

/-- ASCII whitespace, the characters `str.strip` / `str.split` treat as
blank in the inputs at hand (space, tab, newline, carriage return,
vertical tab, form feed). -/
def isSpaceChar (c : Char) : Bool :=
  c = ' ' || c = '\t' || c = '\n' || c = '\r' || c = '\x0b' || c = '\x0c'

/-- Python `s.lstrip()`. -/
def stripLeft (s : Str) : Str := s.dropWhile isSpaceChar

/-- Python `s.rstrip()`. -/
def stripRight (s : Str) : Str := (s.reverse.dropWhile isSpaceChar).reverse

/-- Python `s.strip()`. -/
def strip (s : Str) : Str := stripRight (stripLeft s)

/-- `begins p s` holds when `p` is a prefix of `s` (Python `s.startswith(p)`). -/
def begins : Str → Str → Bool
  | [], _ => true
  | _ :: _, [] => false
  | a :: as, b :: bs => a = b && begins as bs

/-- `hasSub pat s` holds when `pat` occurs as a contiguous substring of `s`
(Python `pat in s`). -/
def hasSub (pat : Str) : Str → Bool
  | [] => begins pat []
  | s@(_ :: rest) => begins pat s || hasSub pat rest

/-- Fuelled core of `replaceAll`. -/
def replaceAllGo (pat rep : Str) : Nat → Str → Str
  | 0, s => s
  | _ + 1, [] => []
  | fuel + 1, a :: rest =>
    if pat ≠ [] ∧ begins pat (a :: rest) then
      rep ++ replaceAllGo pat rep fuel ((a :: rest).drop pat.length)
    else
      a :: replaceAllGo pat rep fuel rest

/-- Python `s.replace(pat, rep)`: replace every non-overlapping occurrence
of `pat`, scanning left to right. -/
def replaceAll (s pat rep : Str) : Str := replaceAllGo pat rep s.length s

/-- Fuelled core of `splitOnSub`. -/
def splitOnSubGo (pat : Str) : Nat → Str → List Str
  | 0, s => [s]
  | _ + 1, [] => [[]]
  | fuel + 1, a :: rest =>
    if pat ≠ [] ∧ begins pat (a :: rest) then
      [] :: splitOnSubGo pat fuel ((a :: rest).drop pat.length)
    else
      match splitOnSubGo pat fuel rest with
      | l :: ls => (a :: l) :: ls
      | [] => [[a]]

/-- Python `s.split(pat)` for a non-empty separator `pat`. -/
def splitOnSub (pat : Str) (s : Str) : List Str := splitOnSubGo pat s.length s

/-- Split on single `\n` characters (Python `chunk.split("\n")`). -/
def splitLines : Str → List Str
  | [] => [[]]
  | '\n' :: rest => [] :: splitLines rest
  | c :: rest =>
    match splitLines rest with
    | l :: ls => (c :: l) :: ls
    | [] => [[c]]

/-- Split on `re.split(r"\r?\n", text)` separators: each `\r\n` pair or
lone `\n` is a separator; a lone `\r` is not. -/
def splitNl : Str → List Str
  | [] => [[]]
  | '\r' :: '\n' :: rest => [] :: splitNl rest
  | '\n' :: rest => [] :: splitNl rest
  | c :: rest =>
    match splitNl rest with
    | l :: ls => (c :: l) :: ls
    | [] => [[c]]

/-- `s.replace("\r\n", "\n").replace("\r", "\n")`: normalise all line
ending styles to `\n`. -/
def normNewlines : Str → Str
  | [] => []
  | '\r' :: '\n' :: rest => '\n' :: normNewlines rest
  | '\r' :: rest => '\n' :: normNewlines rest
  | c :: rest => c :: normNewlines rest

/-- Fuelled core of `splitOnBlank`. -/
def splitOnBlankGo : Nat → Str → List Str
  | 0, s => [s]
  | _ + 1, [] => [[]]
  | fuel + 1, '\n' :: '\n' :: rest =>
    [] :: splitOnBlankGo fuel (rest.dropWhile (· = '\n'))
  | fuel + 1, c :: rest =>
    match splitOnBlankGo fuel rest with
    | l :: ls => (c :: l) :: ls
    | [] => [[c]]

/-- `re.split(r"\n{2,}", s)`: chunks separated by maximal runs of two or
more newlines. -/
def splitOnBlank (s : Str) : List Str := splitOnBlankGo s.length s

/-- Fuelled core of `pyWords`. -/
def pyWordsGo : Nat → Str → List Str
  | 0, _ => []
  | fuel + 1, s =>
    match s.dropWhile isSpaceChar with
    | [] => []
    | c :: cs =>
      (c :: cs.takeWhile (fun x => !isSpaceChar x)) ::
        pyWordsGo fuel (cs.dropWhile (fun x => !isSpaceChar x))

/-- Python `str.split()` with no argument: maximal runs of whitespace
separate words, no empty words are produced. -/
def pyWords (s : Str) : List Str := pyWordsGo s.length s

/-! ### SRT split/join (`_split_srt`, `_join_srt` and line classifiers) -/

/-- `_strip_bom`: `line.lstrip("﻿")`. -/
def strip_bom (line : Str) : Str := line.dropWhile (· = '﻿')

/-- `_is_index_line`: `line.strip().isdigit()`.  `str.isdigit` is modelled
for ASCII digits, which is exact on SRT index lines. -/
def is_index_line (line : Str) : Bool :=
  strip line ≠ [] && (strip line).all Char.isDigit

/-- Consume exactly `n` decimal digits (`\d{n}` at the current position). -/
def eatDigits : Nat → Str → Option Str
  | 0, s => some s
  | _ + 1, [] => none
  | n + 1, c :: r => if c.isDigit then eatDigits n r else none

/-- Consume one expected character. -/
def eatChar (c : Char) : Str → Option Str
  | [] => none
  | d :: r => if d = c then some r else none

/-- Match the timecode pattern
`\d{2}:\d{2}:\d{2},\d{3}\s*-->\s*\d{2}:\d{2}:\d{2},\d{3}` starting at the
head of `s`. -/
def timePatAt (s : Str) : Bool :=
  let step : Option Str := do
    let s ← eatDigits 2 s
    let s ← eatChar ':' s
    let s ← eatDigits 2 s
    let s ← eatChar ':' s
    let s ← eatDigits 2 s
    let s ← eatChar ',' s
    let s ← eatDigits 3 s
    let s := s.dropWhile isSpaceChar
    let s ← eatChar '-' s
    let s ← eatChar '-' s
    let s ← eatChar '>' s
    let s := s.dropWhile isSpaceChar
    let s ← eatDigits 2 s
    let s ← eatChar ':' s
    let s ← eatDigits 2 s
    let s ← eatChar ':' s
    let s ← eatDigits 2 s
    let s ← eatChar ',' s
    eatDigits 3 s
  step.isSome

/-- `_is_time_line`: `_TIME_RE.search(line)` — the timecode pattern matches
at some position of the line. -/
def is_time_line (line : Str) : Bool :=
  line.tails.any timePatAt

/-- `_split_srt`: split SRT content into blocks of lines.  Line endings are
normalised, blocks are chunks separated by two or more newlines, blank
chunks are dropped, and a byte-order mark is stripped from the very first
line of the first kept block. -/
def assembleBlocks (chunks : List Str) : List (List Str) :=
  match chunks.map splitLines with
  | [] => []
  | b :: bs =>
    (match b with
     | [] => []
     | l :: ls => strip_bom l :: ls) :: bs

def split_srt (s : Str) : List (List Str) :=
  if s = [] then []
  else assembleBlocks ((splitOnBlank (normNewlines s)).filter (fun c => strip c ≠ []))

/-- `_join_srt`: join blocks with blank lines and a trailing newline. -/
def join_srt (blocks : List (List Str)) : Str :=
  (List.intercalate ['\n', '\n'] (blocks.map (List.intercalate ['\n']))) ++ ['\n']

/-! ### Tag protection (`_TAG_RE = <[^>]+>`, `_protect_tags`, `_restore_tags`) -/

/-- Split `s` at its first `>`: returns the characters before it and the
rest after it, or `none` when `s` has no `>`. -/
def splitAtGt : Str → Option (Str × Str)
  | [] => none
  | c :: rest =>
    if c = '>' then some ([], rest)
    else (splitAtGt rest).map (fun p => (c :: p.1, p.2))

/-- A match of `<[^>]+>` starting right after a `<`: the body up to the
first `>` must be non-empty. -/
def findGt (s : Str) : Option (Str × Str) :=
  (splitAtGt s).bind (fun p => if p.1 = [] then none else some p)

theorem splitAtGt_shape : ∀ s b r, splitAtGt s = some (b, r) →
    s = b ++ '>' :: r ∧ r.length < s.length := by
  intro s
  induction s with
  | nil => intro b r h; simp [splitAtGt] at h
  | cons c rest ih =>
    intro b r h
    rw [splitAtGt] at h
    by_cases hc : c = '>'
    · rw [if_pos hc] at h
      simp only [Option.some.injEq, Prod.mk.injEq] at h
      obtain ⟨hb, hr⟩ := h
      subst hb; subst hr; subst hc
      simp
    · rw [if_neg hc] at h
      cases hsp : splitAtGt rest with
      | none => rw [hsp] at h; simp at h
      | some p =>
        rw [hsp] at h
        simp only [Option.map_some', Option.some.injEq] at h
        obtain ⟨he, hl⟩ := ih p.1 p.2 hsp
        have hb : c :: p.1 = b := congrArg Prod.fst h
        have hr : p.2 = r := congrArg Prod.snd h
        subst hb; subst hr
        constructor
        · rw [List.cons_append, ← he]
        · simp only [List.length_cons]; omega

theorem findGt_shape {s b r} (h : findGt s = some (b, r)) :
    s = b ++ '>' :: r ∧ r.length < s.length ∧ b ≠ [] := by
  unfold findGt at h
  cases hsp : splitAtGt s with
  | none => rw [hsp] at h; simp at h
  | some p =>
    rw [hsp] at h
    simp only [Option.some_bind] at h
    by_cases hb : p.1 = []
    · rw [if_pos hb] at h; simp at h
    · rw [if_neg hb] at h
      simp only [Option.some.injEq] at h
      obtain ⟨he, hl⟩ := splitAtGt_shape s p.1 p.2 hsp
      have h1 : p.1 = b := congrArg Prod.fst h
      have h2 : p.2 = r := congrArg Prod.snd h
      subst h1; subst h2
      exact ⟨he, hl, hb⟩

/-- One decimal digit character. -/
def digitChar : Nat → Char
  | 0 => '0' | 1 => '1' | 2 => '2' | 3 => '3' | 4 => '4'
  | 5 => '5' | 6 => '6' | 7 => '7' | 8 => '8' | _ => '9'

/-- Fuelled core of `natChars`. -/
def natCharsGo : Nat → Nat → Str
  | 0, _ => []
  | fuel + 1, n =>
    if n < 10 then [digitChar n]
    else natCharsGo fuel (n / 10) ++ [digitChar (n % 10)]

/-- Decimal rendering of a natural number (the `{len(tags)}` part of the
f-string `f"__TAG{len(tags)}__"`). -/
def natChars (n : Nat) : Str := natCharsGo (n + 1) n

example : natChars 0 = ['0'] := by decide
example : natChars 7 = ['7'] := by decide
example : natChars 10 = ['1', '0'] := by decide
example : natChars 235 = ['2', '3', '5'] := by decide

/-- Placeholder token `__TAG{k}__`. -/
def tokenStr (k : Nat) : Str :=
  '_' :: '_' :: 'T' :: 'A' :: 'G' :: (natChars k ++ ['_', '_'])

/-- Fuelled scanning core of `_protect_tags`: `_TAG_RE.sub(_replace, text)`
with the replacement counter starting at `k`.  Returns the protected text
and the replaced tag substrings in replacement order (the insertion order
of the Python dict, whose keys are `__TAG0__`, `__TAG1__`, …). -/
def protectGo : Nat → Str → Nat → Str × List Str
  | 0, s, _ => (s, [])
  | _ + 1, [], _ => ([], [])
  | fuel + 1, c :: rest, k =>
    if c = '<' then
      match findGt rest with
      | some (b, r) =>
        let p := protectGo fuel r (k + 1)
        (tokenStr k ++ p.1, ('<' :: (b ++ ['>'])) :: p.2)
      | none =>
        let p := protectGo fuel rest k
        ('<' :: p.1, p.2)
    else
      let p := protectGo fuel rest k
      (c :: p.1, p.2)

/-- `_protect_tags`. -/
def protect_tags (text : Str) : Str × List Str := protectGo text.length text 0

/-- The loop of `_restore_tags`: for each recorded tag, in insertion
order, replace every occurrence of its placeholder token. -/
def restoreGo : Str → Nat → List Str → Str
  | text, _, [] => text
  | text, k, t :: ts => restoreGo (replaceAll text (tokenStr k) t) (k + 1) ts

/-- `_restore_tags` (the tag map is represented by the list of tag strings
in insertion order; key `__TAG{i}__` maps to the `i`-th entry). -/
def restore_tags (text : Str) (tags : List Str) : Str := restoreGo text 0 tags

/-- Fuelled core of `stripTags`. -/
def stripTagsGo : Nat → Str → Str
  | 0, s => s
  | _ + 1, [] => []
  | fuel + 1, '<' :: rest =>
    match findGt rest with
    | some (_, r) => stripTagsGo fuel r
    | none => '<' :: stripTagsGo fuel rest
  | fuel + 1, c :: rest => c :: stripTagsGo fuel rest

/-- `_TAG_RE.sub("", line)`: remove every markup tag span. -/
def stripTags (s : Str) : Str := stripTagsGo s.length s

/-! ### ALL-CAPS marker heuristic (`_ALLCAPS_RE`, `_is_allcaps_marker`) -/

/-- Membership in the character class of
`_ALLCAPS_RE = ^[^a-zåäöæøéèáíóúñçß]+$`: ASCII lowercase letters plus the
listed accented lowercase letters. -/
def inAllcapsBan (c : Char) : Bool :=
  ('a' ≤ c && c ≤ 'z') ||
  c = 'å' || c = 'ä' || c = 'ö' || c = 'æ' || c = 'ø' || c = 'é' ||
  c = 'è' || c = 'á' || c = 'í' || c = 'ó' || c = 'ú' || c = 'ñ' ||
  c = 'ç' || c = 'ß'

/-- `_ALLCAPS_RE.match(txt)`: the whole string is non-empty and contains no
character of the banned class. -/
def allcapsMatch (txt : Str) : Bool :=
  txt ≠ [] && txt.all (fun c => !inAllcapsBan c)

/-- Python `ch.isalpha()`, restricted to the ASCII, Latin-1, and basic
Cyrillic letter ranges (every code point in these ranges is a Unicode
letter, so the restriction agrees with Python wherever it is defined). -/
def pyIsAlpha (c : Char) : Bool :=
  ('A' ≤ c && c ≤ 'Z') || ('a' ≤ c && c ≤ 'z') ||
  (0xC0 ≤ c.val && c.val ≤ 0xD6) || (0xD8 ≤ c.val && c.val ≤ 0xF6) ||
  (0xF8 ≤ c.val && c.val ≤ 0xFF) || (0x410 ≤ c.val && c.val ≤ 0x44F)

/-- Unicode lowercase letters (`Ll`), restricted to the same ranges as
`pyIsAlpha`: ASCII `a`–`z`, Latin-1 `ß`–`ö` and `ø`–`ÿ`, Cyrillic `а`–`я`. -/
def pyIsLower (c : Char) : Bool :=
  ('a' ≤ c && c ≤ 'z') ||
  (0xDF ≤ c.val && c.val ≤ 0xF6) || (0xF8 ≤ c.val && c.val ≤ 0xFF) ||
  (0x430 ≤ c.val && c.val ≤ 0x44F)

/-- `_is_allcaps_marker`. -/
def is_allcaps_marker (line : Str) : Bool :=
  let txt := strip (stripTags line)
  if txt.length = 0 then false
  else if txt.length ≤ 40 && allcapsMatch txt && txt.any pyIsAlpha then true
  else false

/-! ### Reflow (`_split_to_n_lines_preserving_words`) -/

/-- Python 3 `round(a / b)` on the exact rational value: round half to
even. -/
def roundDiv (a b : Nat) : Nat :=
  let q := a / b
  let r := a % b
  if 2 * r < b then q
  else if b < 2 * r then q + 1
  else if q % 2 = 0 then q else q + 1

/-- Python `s.find(" ", i)` (as an `Option` instead of `-1`). -/
def findSpaceFrom (s : Str) (i : Nat) : Option Nat :=
  match (s.drop i).findIdx? (· = ' ') with
  | some j => some (i + j)
  | none => none

/-- Python `s.rfind(" ", 0, i)` (as an `Option` instead of `-1`). -/
def rfindSpaceBefore (s : Str) (i : Nat) : Option Nat :=
  let t := s.take i
  match t.reverse.findIdx? (· = ' ') with
  | some j => some (t.length - 1 - j)
  | none => none

/-- The cutting loop of `_split_to_n_lines_preserving_words`: `i` is the
loop counter, `start` the consumed prefix length, `left` the number of
lines still to produce. -/
def splitCutGo (text : Str) (tl : List Nat) : Nat → Nat → Nat → List Str
  | _, _, 0 => []
  | _, start, 1 => [stripLeft (text.drop start)]
  | i, start, left + 2 =>
    let remaining := stripLeft (text.drop start)
    let cutTarget := min remaining.length (max 1 (tl.getD i 0))
    let best :=
      match findSpaceFrom remaining cutTarget with
      | some r => r
      | none =>
        match rfindSpaceBefore remaining cutTarget with
        | some l => l
        | none => cutTarget
    let piece := stripRight (remaining.take best)
    let start1 := start + best
    let start2 := if start1 < text.length ∧ text.getD start1 ' ' = ' '
                  then start1 + 1 else start1
    piece :: splitCutGo text tl (i + 1) start2 (left + 1)

/-- `_split_to_n_lines_preserving_words`. -/
def split_to_n_lines_preserving_words (text0 : Str) (n : Nat)
    (targetLengths : Option (List Nat)) : List Str :=
  let text := List.intercalate [' ']
    (pyWords (text0.map (fun c => if c = '\n' then ' ' else c)))
  if n ≤ 1 then [text]
  else
    let parts := ((splitNl text).filter (fun p => strip p ≠ [])).map strip
    if parts.length = n then parts
    else
      let totalLen := max 1 text.length
      let tl :=
        match targetLengths with
        | some l => if l ≠ [] ∧ l.length = n then l
                    else List.replicate n (roundDiv totalLen n)
        | none => List.replicate n (roundDiv totalLen n)
      let out := splitCutGo text tl 0 0 n
      (out ++ List.replicate (n - out.length) []).take n

/-! ### Cue grouping (`translate_srt_with_progress`, lines 326–358) -/

/-- `_SENTINEL = "__NL__"`. -/
def sentinel : Str := ['_', '_', 'N', 'L', '_', '_']

/-- The join separator `f" {_SENTINEL} "`. -/
def sentSep : Str := ' ' :: sentinel ++ [' ']

/-- `f" {_SENTINEL} ".join(block[k] for k in run)`. -/
def mergeRun (block : List Str) (run : List Nat) : Str :=
  List.intercalate sentSep (run.map (fun k => block.getD k []))

/-- Flush the accumulated run (if non-empty) as one merged unit. -/
def flushRun (block : List Str) (run : List Nat) : List (Str × List Nat) :=
  if run = [] then [] else [(mergeRun block run, run)]

/-- The run-partitioning loop over one block's text-line indices: marker
lines stand alone, consecutive non-marker lines accumulate into a run. -/
def groupGo (block : List Str) : List Nat → List Nat → List (Str × List Nat)
  | [], run => flushRun block run
  | li :: rest, run =>
    if is_allcaps_marker (block.getD li []) then
      flushRun block run ++ (block.getD li [], [li]) :: groupGo block rest []
    else
      groupGo block rest (run ++ [li])

/-- The indices of the translatable text lines of a block: not an index
line, not a time line, and non-blank. -/
def textIdxs (block : List Str) : List Nat :=
  ((List.range block.length).filter
    (fun li => !is_index_line (block.getD li []) && !is_time_line (block.getD li []))).filter
    (fun li => strip (block.getD li []) ≠ [])

/-- The translation units of one block, in order: `(unit text, line
indices within the block)`. -/
def groupBlock (block : List Str) : List (Str × List Nat) :=
  groupGo block (textIdxs block) []

/-- The in-place `block[0] = _strip_bom(block[0])` applied to the first
block before grouping. -/
def prepBlocks : List (List Str) → List (List Str)
  | [] => []
  | b :: bs =>
    (match b with
     | [] => []
     | l :: ls => strip_bom l :: ls) :: bs

/-- The accumulation of groups and placements over all blocks
(`for bi, block in enumerate(blocks)` starting at index `bi`). -/
def buildGo : Nat → List (List Str) → List (Str × Nat × List Nat)
  | _, [] => []
  | bi, b :: bs => (groupBlock b).map (fun u => (u.1, bi, u.2)) ++ buildGo (bi + 1) bs

/-- The `groups` list sent to the engine. -/
def groupsOf (blocks : List (List Str)) : List Str :=
  (buildGo 0 blocks).map (fun u => u.1)

/-- The `placements` list `(block_index, line_indexes_within_block)`. -/
def placementsOf (blocks : List (List Str)) : List (Nat × List Nat) :=
  (buildGo 0 blocks).map (fun u => u.2)

/-! ### Reassembly (`translate_srt_with_progress`, lines 403–431) -/

/-- `for li, part in zip(idxs, parts): blocks[bi][li] = part`. -/
def assignParts (block : List Str) (idxs : List Nat) (parts : List Str) : List Str :=
  (idxs.zip parts).foldl (fun b p => b.set p.1 p.2) block

/-- Choose the parts for a multi-line run: sentinel split, then newline
split, then word-preserving reflow guided by the original line lengths. -/
def chooseParts (block : List Str) (idxs : List Nat) (text : Str) : List Str :=
  let parts := (splitOnSub sentinel text).map strip
  if parts.length = idxs.length then parts
  else
    let nlParts := ((splitNl text).filter (fun p => strip p ≠ [])).map strip
    if nlParts.length = idxs.length then nlParts
    else split_to_n_lines_preserving_words text idxs.length
      (some (idxs.map (fun k => (block.getD k []).length)))

/-- Write one translated unit back into the blocks. -/
def writeUnit (blocks : List (List Str)) (bi : Nat) (idxs : List Nat) (text : Str) :
    List (List Str) :=
  if idxs.length = 1 then
    blocks.set bi ((blocks.getD bi []).set (idxs.getD 0 0) (strip text))
  else
    let block := blocks.getD bi []
    blocks.set bi (assignParts block idxs (chooseParts block idxs text))

/-- The write-back loop: the `gi`-th placement receives
`_nfc(translated[gi] if gi < len(translated) else "")`. -/
def writeBack (nfc : Str → Str) : List (List Str) → List (Nat × List Nat) → List Str →
    List (List Str)
  | blocks, [], _ => blocks
  | blocks, p :: ps, translated =>
    writeBack nfc (writeUnit blocks p.1 p.2 (nfc (translated.headD []))) ps
      (translated.drop 1)

/-- Group, then write an arbitrary translated list back: the structural
core of `translate_srt_with_progress` with the engine output abstracted. -/
def translate_core (nfc : Str → Str) (blocks0 : List (List Str))
    (translated : List Str) : List (List Str) :=
  let blocks := prepBlocks blocks0
  writeBack nfc blocks (placementsOf blocks) translated

/-! ### Backend dispatch (`_nllb_translate_batched`, `_lt_translate_batched`,
`_argos_translate`, engine selection).  A backend server is abstracted as
`srv : List Str → Option (List Str)`: the per-batch response body, with
`none` for a transport failure (`requests` exception / non-2xx status). -/

/-- The batches visited by `for i in range(0, len(l), max(1, bs)): l[i:i+bs]`
(chunk size `bs ≥ 1`; fuel is the list length). -/
def chunksGo (bs : Nat) : Nat → List Str → List (List Str)
  | _, [] => []
  | 0, l => [l]
  | fuel + 1, l@(_ :: _) => l.take bs :: chunksGo bs fuel (l.drop bs)

/-- All batches, including the degenerate `bs = 0` behaviour (step
`max(1, 0) = 1` but empty slices `l[i:i+0]`). -/
def pyChunks (l : List Str) (bs : Nat) : List (List Str) :=
  if bs = 0 then l.map (fun _ => []) else chunksGo bs l.length l

/-- The batch loop shared by both HTTP backends: returns the progress
pairs reported after each successful batch, the concatenated response
strings, and whether all batches succeeded.  On a failing batch the pairs
already reported are kept and the loop aborts. -/
def runBatches (srv : List Str → Option (List Str)) (total : Nat) :
    List (List Str) → Nat → List (Nat × Nat) × List Str × Bool
  | [], _ => ([], [], true)
  | b :: bs, done =>
    match srv b with
    | none => ([], [], false)
    | some out =>
      let done2 := min total (done + b.length)
      let r := runBatches srv total bs done2
      ((total, done2) :: r.1, out ++ r.2.1, r.2.2)

/-- `_nllb_translate_batched`: protect tags, apply the glossary
substitution (abstracted as `gloss`), send batches, restore tags and
normalise.  Returns the progress trace and the result (`none` = the
exception propagates). -/
def nllb_translate_batched (nfc gloss : Str → Str) (srv : List Str → Option (List Str))
    (lines : List Str) (bs : Nat) : List (Nat × Nat) × Option (List Str) :=
  if lines = [] then ([], some [])
  else
    let pairs := lines.map protect_tags
    let prepped := pairs.map (fun p => gloss p.1)
    let total := prepped.length
    let r := runBatches srv total (pyChunks prepped bs) 0
    let trace := (total, 0) :: r.1
    if r.2.2 then
      (trace, some ((r.2.1.zip (pairs.map (fun p => p.2))).map
        (fun q => nfc (restore_tags q.1 q.2))))
    else (trace, none)

/-- `_lt_translate_batched`: raw lines in batches, no tag protection, no
normalisation. -/
def lt_translate_batched (srv : List Str → Option (List Str))
    (lines : List Str) (bs : Nat) : List (Nat × Nat) × Option (List Str) :=
  if lines = [] then ([], some [])
  else
    let total := lines.length
    let r := runBatches srv total (pyChunks lines bs) 0
    ((total, 0) :: r.1, if r.2.2 then some r.2.1 else none)

/-- `_argos_translate`: reports `(len(lines), len(lines))` once and
returns the lines unchanged. -/
def argos_translate (lines : List Str) : List (Nat × Nat) × List Str :=
  ([(lines.length, lines.length)], lines)

/-- `(engine or "auto").lower()`. -/
def engineNorm (engine : Str) : Str :=
  if engine = [] then ("auto").data else engine.map Char.toLower

/-- The engine-selection and fallback chain of
`translate_srt_with_progress` (lines 364–400): `nres` and `lres` are the
outcome of calling the NLLB / LibreTranslate wrappers on the full group
list (trace, result), consulted only when the corresponding attempt
actually happens. -/
def selectTranslated (ue : Str) (nres lres : List (Nat × Nat) × Option (List Str))
    (gps : List Str) : List (Nat × Nat) × Except Unit (List Str) :=
  let s1 : List (Nat × Nat) × Except Unit (List Str) :=
    if ue = ("nllb").data ∨ ue = ("auto").data then
      match nres with
      | (tr, some t) => (tr, .ok t)
      | (tr, none) => if ue = ("nllb").data then (tr, .error ()) else (tr, .ok [])
    else ([], .ok [])
  match s1 with
  | (tr1, .error e) => (tr1, .error e)
  | (tr1, .ok t1) =>
    let s2 : List (Nat × Nat) × Except Unit (List Str) :=
      if t1 = [] ∧ (ue = ("libre").data ∨ ue = ("auto").data) then
        match lres with
        | (tr, some t) => (tr, .ok t)
        | (tr, none) => if ue = ("libre").data then (tr, .error ()) else (tr, .ok [])
      else ([], .ok t1)
    match s2 with
    | (tr2, .error e) => (tr1 ++ tr2, .error e)
    | (tr2, .ok t2) =>
      if t2 = [] then
        (tr1 ++ tr2 ++ (argos_translate gps).1, .ok (argos_translate gps).2)
      else (tr1 ++ tr2, .ok t2)

/-- `translate_srt_with_progress`: the full driver.  Returns the
concatenated progress trace of all backend attempts and either the output
SRT text or `.error ()` when an engine failure propagates to the caller. -/
def translate_srt_with_progress (nfc gloss : Str → Str) (engine : Str)
    (nsrv lsrv : List Str → Option (List Str)) (bs : Nat) (srt : Str) :
    List (Nat × Nat) × Except Unit Str :=
  if groupsOf (prepBlocks (split_srt srt)) = [] then
    ([], .ok (join_srt (prepBlocks (split_srt srt))))
  else
    match selectTranslated (engineNorm engine)
        (nllb_translate_batched nfc gloss nsrv
          (groupsOf (prepBlocks (split_srt srt))) bs)
        (lt_translate_batched lsrv (groupsOf (prepBlocks (split_srt srt))) bs)
        (groupsOf (prepBlocks (split_srt srt))) with
    | (tr, .error e) => (tr, .error e)
    | (tr, .ok t) =>
      (tr, .ok (join_srt (writeBack nfc (prepBlocks (split_srt srt))
        (placementsOf (prepBlocks (split_srt srt))) t)))

/-! ### Helper lemmas: reflow line count -/

theorem splitCutGo_length (text : Str) (tl : List Nat) :
    ∀ left i start, (splitCutGo text tl i start left).length = left := by
  intro left
  induction left with
  | zero => intro i start; rfl
  | succ m ih =>
    intro i start
    cases m with
    | zero => rfl
    | succ m2 =>
      show (_ :: splitCutGo text tl (i + 1) _ (m2 + 1)).length = m2 + 2
      simp only [List.length_cons]
      rw [ih]

theorem split_to_n_length (text : Str) (n : Nat) (tl : Option (List Nat))
    (h : 2 ≤ n) : (split_to_n_lines_preserving_words text n tl).length = n := by
  unfold split_to_n_lines_preserving_words
  rw [if_neg (by omega)]
  set t := List.intercalate [' ']
    (pyWords (text.map (fun c => if c = '\n' then ' ' else c))) with ht
  by_cases hp : (((splitNl t).filter (fun p => strip p ≠ [])).map strip).length = n
  · rw [if_pos hp]; exact hp
  · rw [if_neg hp]
    have hout : ∀ (tl2 : List Nat), (splitCutGo t tl2 0 0 n).length = n :=
      fun tl2 => splitCutGo_length t tl2 n 0 0
    cases tl with
    | none =>
      simp only [List.length_take, List.length_append, List.length_replicate, hout]
      omega
    | some l =>
      by_cases hl : l ≠ [] ∧ l.length = n
      · simp only [hl, if_pos, List.length_take, List.length_append,
          List.length_replicate, hout]
        omega
      · simp only [hl, if_neg, if_false, List.length_take, List.length_append,
          List.length_replicate, hout]
        omega

theorem chooseParts_length (block : List Str) (idxs : List Nat) (text : Str)
    (h : 2 ≤ idxs.length) : (chooseParts block idxs text).length = idxs.length := by
  unfold chooseParts
  by_cases h1 : ((splitOnSub sentinel text).map strip).length = idxs.length
  · rw [if_pos h1]; exact h1
  · rw [if_neg h1]
    by_cases h2 : (((splitNl text).filter (fun p => strip p ≠ [])).map strip).length
        = idxs.length
    · rw [if_pos h2]; exact h2
    · rw [if_neg h2]
      exact split_to_n_length _ _ _ h

/-- **C2.** `_split_to_n_lines_preserving_words(text, n, target_lengths)`
returns exactly `n` strings whenever `n ≥ 2`, and consequently the
reassembler's part selection for a merged unit of `N > 1` source lines
always produces exactly `N` strings, whatever the translated text looks
like. -/
theorem claim_C2_reflow_count (text : Str) (n : Nat) (tl : Option (List Nat))
    (block : List Str) (idxs : List Nat) (t2 : Str)
    (hn : 2 ≤ n) (hidxs : 2 ≤ idxs.length) :
    (split_to_n_lines_preserving_words text n tl).length = n ∧
    (chooseParts block idxs t2).length = idxs.length :=
  ⟨split_to_n_length text n tl hn, chooseParts_length block idxs t2 hidxs⟩

/-- Witness for C2 at concrete inputs. -/
theorem claim_C2_reflow_count_witness :
    (split_to_n_lines_preserving_words ("hello world and sun").data 3 none).length = 3 ∧
    (chooseParts [('a' : Char) :: [], ['b']] [0, 1] ("garbage text").data).length = 2 :=
  claim_C2_reflow_count ("hello world and sun").data 3 none
    [('a' : Char) :: [], ['b']] [0, 1] ("garbage text").data
    (by omega) (by simp)

/-! ### C4: the grouper produces maximal runs split at markers -/

/-- Spec-side description of the grouper (§4.3 of the spec): walking the
text-line indices in order, each marker line becomes its own singleton
unit and each maximal run of consecutive non-marker lines becomes one
merged unit joined by the sentinel token surrounded by spaces. -/
def specUnits (block : List Str) : List Nat → List (Str × List Nat)
  | [] => []
  | li :: rest =>
    if hm : is_allcaps_marker (block.getD li []) then
      (block.getD li [], [li]) :: specUnits block rest
    else
      let run := (li :: rest).takeWhile (fun k => !is_allcaps_marker (block.getD k []))
      (mergeRun block run, run) ::
        specUnits block ((li :: rest).dropWhile (fun k => !is_allcaps_marker (block.getD k [])))
termination_by l => l.length
decreasing_by
  · simp
  · have hli : (fun k => !is_allcaps_marker (block.getD k [])) li = true := by
      simp only [Bool.not_eq_true']
      simpa using hm
    rw [List.dropWhile_cons, if_pos hli]
    have h2 : ((rest.dropWhile (fun k => !is_allcaps_marker (block.getD k [])))).length
        ≤ rest.length := (List.dropWhile_suffix _).length_le
    simp only [List.length_cons]
    omega

theorem specUnits_eq_flush (block : List Str) (l : List Nat) :
    specUnits block l =
      flushRun block (l.takeWhile (fun k => !is_allcaps_marker (block.getD k []))) ++
        specUnits block (l.dropWhile (fun k => !is_allcaps_marker (block.getD k []))) := by
  cases l with
  | nil => simp [specUnits, flushRun]
  | cons li rest =>
    rw [List.takeWhile_cons, List.dropWhile_cons]
    cases hb : is_allcaps_marker (block.getD li []) with
    | true =>
      simp only [hb, Bool.not_true, Bool.false_eq_true, if_false]
      simp [flushRun]
    | false =>
      simp only [hb, Bool.not_false, if_true]
      rw [specUnits]
      rw [dif_neg (by rw [hb]; exact Bool.false_ne_true)]
      rw [List.takeWhile_cons]
      simp only [hb, Bool.not_false, if_true]
      rw [List.dropWhile_cons]
      simp only [hb, Bool.not_false, if_true]
      have hne : li :: rest.takeWhile (fun k => !is_allcaps_marker (block.getD k [])) ≠ [] := by
        simp
      rw [flushRun, if_neg hne]
      rfl

theorem groupGo_spec (block : List Str) :
    ∀ (idxs run : List Nat),
      groupGo block idxs run =
        flushRun block (run ++ idxs.takeWhile (fun k => !is_allcaps_marker (block.getD k []))) ++
          specUnits block (idxs.dropWhile (fun k => !is_allcaps_marker (block.getD k []))) := by
  intro idxs
  induction idxs with
  | nil =>
    intro run
    simp [groupGo, specUnits]
  | cons li rest ih =>
    intro run
    rw [List.takeWhile_cons, List.dropWhile_cons]
    cases hb : is_allcaps_marker (block.getD li []) with
    | true =>
      simp only [hb, Bool.not_true, Bool.false_eq_true, if_false, List.append_nil]
      rw [groupGo, if_pos hb]
      rw [ih []]
      simp only [List.nil_append]
      rw [specUnits, dif_pos hb]
      rw [specUnits_eq_flush block rest]
    | false =>
      simp only [hb, Bool.not_false, if_true]
      rw [groupGo, if_neg (by rw [hb]; exact Bool.false_ne_true)]
      rw [ih (run ++ [li])]
      simp only [List.append_assoc, List.cons_append, List.nil_append]

/-- **C4.** The grouper walks a block's text lines in order, turning each
maximal run of consecutive non-marker lines into one merged unit joined by
the sentinel surrounded by spaces and each marker line into its own
singleton unit; on the block `["Hello there", "SIRENS WAIL", "how are
you"]` it yields exactly the three expected units. -/
theorem claim_C4_marker_isolation :
    (∀ block : List Str, groupBlock block = specUnits block (textIdxs block)) ∧
    groupBlock [("Hello there").data, ("SIRENS WAIL").data, ("how are you").data] =
      [(("Hello there").data, [0]), (("SIRENS WAIL").data, [1]),
       (("how are you").data, [2])] := by
  constructor
  · intro block
    rw [groupBlock, groupGo_spec block _ [], List.nil_append, ← specUnits_eq_flush]
  · decide

/-! ### C5: units partition exactly the translatable text-line positions -/

theorem flushRun_flat (block : List Str) (run : List Nat) :
    (flushRun block run).flatMap (fun u => u.2) = run := by
  by_cases h : run = []
  · rw [flushRun, if_pos h, h]; rfl
  · rw [flushRun, if_neg h]; simp

theorem groupGo_flat (block : List Str) :
    ∀ (idxs run : List Nat),
      (groupGo block idxs run).flatMap (fun u => u.2) = run ++ idxs := by
  intro idxs
  induction idxs with
  | nil => intro run; rw [groupGo]; simp [flushRun_flat]
  | cons li rest ih =>
    intro run
    rw [groupGo]
    by_cases hm : is_allcaps_marker (block.getD li [])
    · rw [if_pos hm]
      rw [List.flatMap_append, flushRun_flat, List.flatMap_cons, ih []]
      simp
    · rw [if_neg hm, ih (run ++ [li])]
      simp

theorem buildGo_key_ge : ∀ (bs : List (List Str)) (n : Nat) (u : Str × Nat × List Nat),
    u ∈ buildGo n bs → n ≤ u.2.1 := by
  intro bs
  induction bs with
  | nil => intro n u h; simp [buildGo] at h
  | cons b rest ih =>
    intro n u h
    rw [buildGo, List.mem_append] at h
    rcases h with h | h
    · obtain ⟨v, _, hv⟩ := List.mem_map.mp h
      rw [← hv]
    · have := ih (n + 1) u h
      omega

theorem buildGo_filter_flat : ∀ (bs : List (List Str)) (n bi : Nat), n ≤ bi →
    (((buildGo n bs).filter (fun u => u.2.1 == bi)).map (fun u => u.2.2)).flatten =
      textIdxs (bs.getD (bi - n) []) := by
  intro bs
  induction bs with
  | nil =>
    intro n bi _
    show ([] : List Nat) = textIdxs ([].getD (bi - n) [])
    have : (([] : List (List Str)).getD (bi - n) []) = [] := by
      simp [List.getD]
    rw [this]
    rfl
  | cons b rest ih =>
    intro n bi hn
    rw [buildGo, List.filter_append, List.map_append, List.flatten_append]
    by_cases hbi : bi = n
    · subst hbi
      have hkeep : ((groupBlock b).map (fun u => (u.1, bi, u.2))).filter
          (fun u => u.2.1 == bi) = (groupBlock b).map (fun u => (u.1, bi, u.2)) := by
        apply List.filter_eq_self.mpr
        intro u hu
        obtain ⟨v, _, hv⟩ := List.mem_map.mp hu
        rw [← hv]
        simp
      have hdrop : (buildGo (bi + 1) rest).filter (fun u => u.2.1 == bi) = [] := by
        apply List.filter_eq_nil_iff.mpr
        intro u hu
        have := buildGo_key_ge rest (bi + 1) u hu
        simp only [beq_iff_eq]
        omega
      rw [hkeep, hdrop]
      have hmm : ((groupBlock b).map (fun u => (u.1, bi, u.2))).map (fun u => u.2.2) =
          (groupBlock b).map (fun u => u.2) := by
        rw [List.map_map]; rfl
      rw [hmm]
      have : ((groupBlock b).map (fun u => u.2)).flatten =
          (groupBlock b).flatMap (fun u => u.2) := by
        rw [List.flatMap_def]
      rw [this, groupBlock, groupGo_flat, Nat.sub_self]
      simp

    · have hgt : n < bi := Nat.lt_of_le_of_ne hn (fun h => hbi h.symm)
      have hdrop : ((groupBlock b).map (fun u => (u.1, n, u.2))).filter
          (fun u => u.2.1 == bi) = [] := by
        apply List.filter_eq_nil_iff.mpr
        intro u hu
        obtain ⟨v, _, hv⟩ := List.mem_map.mp hu
        rw [← hv]
        simp only [beq_iff_eq]
        omega
      rw [hdrop]
      have hrec := ih (n + 1) bi (by omega)
      rw [hrec]
      have : bi - n = (bi - (n + 1)) + 1 := by omega
      rw [this]
      simp

theorem placements_filter_flat (blocks : List (List Str)) (bi : Nat) :
    (((placementsOf blocks).filter (fun p => p.1 == bi)).map
        (fun p => p.2)).flatten = textIdxs (blocks.getD bi []) := by
  have h1 : (placementsOf blocks).filter (fun p => p.1 == bi) =
      ((buildGo 0 blocks).filter (fun u => u.2.1 == bi)).map (fun u => u.2) := by
    rw [placementsOf, List.filter_map]
    rfl
  rw [h1, List.map_map]
  have h2 : ((buildGo 0 blocks).filter (fun u => u.2.1 == bi)).map
        ((fun p => p.2) ∘ (fun u : Str × Nat × List Nat => u.2)) =
      ((buildGo 0 blocks).filter (fun u => u.2.1 == bi)).map (fun u => u.2.2) := rfl
  rw [h2, buildGo_filter_flat blocks 0 bi (Nat.zero_le bi), Nat.sub_zero]

theorem textIdxs_mem (block : List Str) (li : Nat) :
    li ∈ textIdxs block ↔
      (li < block.length ∧
       is_index_line (block.getD li []) = false ∧
       is_time_line (block.getD li []) = false ∧
       strip (block.getD li []) ≠ []) := by
  rw [textIdxs, List.mem_filter, List.mem_filter, List.mem_range]
  constructor
  · rintro ⟨⟨hr, hc⟩, hs⟩
    simp only [Bool.and_eq_true, Bool.not_eq_true'] at hc
    refine ⟨hr, hc.1, hc.2, ?_⟩
    simpa using hs
  · rintro ⟨hr, hi, ht, hs⟩
    refine ⟨⟨hr, ?_⟩, ?_⟩
    · simp only [Bool.and_eq_true, Bool.not_eq_true']
      exact ⟨hi, ht⟩
    · simpa using hs

/-- **C5.** For every parsed document the units' back-references partition
the translatable text-line positions: within every block, the
concatenation of the line-index lists of that block's units is exactly
`textIdxs` of the block (each translatable position exactly once, in
order), `textIdxs` has no duplicates, and membership in `textIdxs` is
equivalent to being an in-range line that is neither an Index line nor a
Timestamp line nor blank — so no Index, Timestamp, or Blank position ever
appears in any unit, and the written-back positions are exactly the
original text-line positions. -/
theorem claim_C5_unit_partition (blocks : List (List Str)) :
    (∀ bi, (((placementsOf blocks).filter (fun p => p.1 == bi)).map
        (fun p => p.2)).flatten = textIdxs (blocks.getD bi [])) ∧
    (∀ bi, (textIdxs (blocks.getD bi [])).Nodup) ∧
    (∀ bi li, li ∈ textIdxs (blocks.getD bi []) ↔
      (li < (blocks.getD bi []).length ∧
       is_index_line ((blocks.getD bi []).getD li []) = false ∧
       is_time_line ((blocks.getD bi []).getD li []) = false ∧
       strip ((blocks.getD bi []).getD li []) ≠ [])) :=
  ⟨fun bi => placements_filter_flat blocks bi,
   fun _ => ((List.nodup_range _).filter _).filter _,
   fun bi li => textIdxs_mem (blocks.getD bi []) li⟩

/-! ### C1: structure preservation through write-back -/

/-- The line at position `(bi, li)` of a block list. -/
def lineAt (blocks : List (List Str)) (bi li : Nat) : Str :=
  (blocks.getD bi []).getD li []

theorem getD_set_ne {α : Type} (l : List α) (i j : Nat) (a d : α) (h : i ≠ j) :
    (l.set i a).getD j d = l.getD j d := by
  rw [List.getD_eq_getElem?_getD, List.getD_eq_getElem?_getD, List.getElem?_set_ne h]

theorem getD_set_self {α : Type} (l : List α) (i : Nat) (a d : α) :
    (l.set i a).getD i d = if i < l.length then a else d := by
  rw [List.getD_eq_getElem?_getD, List.getElem?_set]
  by_cases h : i < l.length
  · simp [h]
  · simp only [if_pos rfl, if_neg h, Option.getD_none]
    rw [List.getElem?_eq_none (by omega)]
    rfl

theorem getD_of_le {α : Type} (l : List α) (i : Nat) (d : α) (h : l.length ≤ i) :
    l.getD i d = d := by
  rw [List.getD_eq_getElem?_getD, List.getElem?_eq_none h]
  rfl

theorem assignParts_length : ∀ (idxs : List Nat) (parts : List Str) (block : List Str),
    (assignParts block idxs parts).length = block.length := by
  intro idxs
  induction idxs with
  | nil => intro parts block; rfl
  | cons i is ih =>
    intro parts block
    cases parts with
    | nil => rfl
    | cons p ps =>
      show (assignParts (block.set i p) is ps).length = block.length
      rw [ih, List.length_set]

theorem assignParts_keep : ∀ (idxs : List Nat) (parts : List Str) (block : List Str)
    (lj : Nat), lj ∉ idxs →
    (assignParts block idxs parts).getD lj [] = block.getD lj [] := by
  intro idxs
  induction idxs with
  | nil => intro parts block lj _; rfl
  | cons i is ih =>
    intro parts block lj hlj
    cases parts with
    | nil => rfl
    | cons p ps =>
      show (assignParts (block.set i p) is ps).getD lj [] = block.getD lj []
      rw [ih ps _ lj (fun h => hlj (List.mem_cons_of_mem _ h))]
      exact getD_set_ne block i lj p [] (fun h => hlj (h ▸ List.mem_cons_self i is))

theorem writeUnit_length (blocks : List (List Str)) (bi : Nat) (idxs : List Nat)
    (text : Str) : (writeUnit blocks bi idxs text).length = blocks.length := by
  unfold writeUnit
  split <;> rw [List.length_set]

theorem writeUnit_block_length (blocks : List (List Str)) (bi : Nat) (idxs : List Nat)
    (text : Str) (bj : Nat) :
    ((writeUnit blocks bi idxs text).getD bj []).length = (blocks.getD bj []).length := by
  by_cases hbij : bi = bj
  · subst hbij
    unfold writeUnit
    by_cases hlen : bi < blocks.length
    · split
      · rw [getD_set_self, if_pos hlen, List.length_set]
      · rw [getD_set_self, if_pos hlen, assignParts_length]
    · split
      · rw [getD_set_self, if_neg hlen, getD_of_le blocks bi [] (Nat.le_of_not_lt hlen)]
      · rw [getD_set_self, if_neg hlen, getD_of_le blocks bi [] (Nat.le_of_not_lt hlen)]
  · unfold writeUnit
    split
    · rw [getD_set_ne _ _ _ _ _ hbij]
    · rw [getD_set_ne _ _ _ _ _ hbij]

theorem writeUnit_keep (blocks : List (List Str)) (bi : Nat) (idxs : List Nat)
    (text : Str) (bj lj : Nat) (h : bi ≠ bj ∨ lj ∉ idxs) :
    lineAt (writeUnit blocks bi idxs text) bj lj = lineAt blocks bj lj := by
  by_cases hbij : bi = bj
  · subst hbij
    have hlj : lj ∉ idxs := h.resolve_left (fun hne => hne rfl)
    unfold lineAt writeUnit
    by_cases hlen : bi < blocks.length
    · split
      · rw [getD_set_self, if_pos hlen]
        rename_i hone
        have : idxs.getD 0 0 ≠ lj := by
          cases idxs with
          | nil => simp at hone
          | cons i is =>
            cases is with
            | nil =>
              intro he
              exact hlj (by rw [List.getD] at he; simp at he; simp [he])
            | cons i2 is2 => simp at hone
        rw [getD_set_ne _ _ _ _ _ this]
      · rw [getD_set_self, if_pos hlen]
        exact assignParts_keep _ _ _ lj hlj
    · split
      · rw [getD_set_self, if_neg hlen, getD_of_le blocks bi [] (Nat.le_of_not_lt hlen)]
      · rw [getD_set_self, if_neg hlen, getD_of_le blocks bi [] (Nat.le_of_not_lt hlen)]
  · unfold lineAt writeUnit
    split
    · rw [getD_set_ne _ _ _ _ _ hbij]
    · rw [getD_set_ne _ _ _ _ _ hbij]

theorem writeBack_length (nfc : Str → Str) :
    ∀ (ps : List (Nat × List Nat)) (blocks : List (List Str)) (t : List Str),
    (writeBack nfc blocks ps t).length = blocks.length := by
  intro ps
  induction ps with
  | nil => intro blocks t; rfl
  | cons p rest ih =>
    intro blocks t
    show (writeBack nfc (writeUnit blocks p.1 p.2 _) rest _).length = blocks.length
    rw [ih, writeUnit_length]

theorem writeBack_block_length (nfc : Str → Str) :
    ∀ (ps : List (Nat × List Nat)) (blocks : List (List Str)) (t : List Str) (bj : Nat),
    ((writeBack nfc blocks ps t).getD bj []).length = (blocks.getD bj []).length := by
  intro ps
  induction ps with
  | nil => intro blocks t bj; rfl
  | cons p rest ih =>
    intro blocks t bj
    show ((writeBack nfc (writeUnit blocks p.1 p.2 _) rest _).getD bj []).length = _
    rw [ih, writeUnit_block_length]

theorem writeBack_keep (nfc : Str → Str) :
    ∀ (ps : List (Nat × List Nat)) (blocks : List (List Str)) (t : List Str)
    (bj lj : Nat), (∀ p ∈ ps, p.1 ≠ bj ∨ lj ∉ p.2) →
    lineAt (writeBack nfc blocks ps t) bj lj = lineAt blocks bj lj := by
  intro ps
  induction ps with
  | nil => intro blocks t bj lj _; rfl
  | cons p rest ih =>
    intro blocks t bj lj h
    show lineAt (writeBack nfc (writeUnit blocks p.1 p.2 _) rest _) bj lj = _
    rw [ih _ _ bj lj (fun q hq => h q (List.mem_cons_of_mem _ hq))]
    exact writeUnit_keep _ _ _ _ _ _ (h p (List.mem_cons_self p rest))

/-- Every position referenced by a placement is a translatable text-line
position of its block. -/
theorem placement_mem (blocks : List (List Str)) (p : Nat × List Nat)
    (hp : p ∈ placementsOf blocks) (li : Nat) (hli : li ∈ p.2) :
    li ∈ textIdxs (blocks.getD p.1 []) := by
  have h1 : p ∈ (placementsOf blocks).filter (fun q => q.1 == p.1) :=
    List.mem_filter.mpr ⟨hp, by simp⟩
  have h2 : p.2 ∈ ((placementsOf blocks).filter (fun q => q.1 == p.1)).map
      (fun q => q.2) := List.mem_map.mpr ⟨p, h1, rfl⟩
  have h3 := List.mem_flatten.mpr ⟨p.2, h2, hli⟩
  rw [placements_filter_flat blocks p.1] at h3
  exact h3

/-- `_strip_bom` is idempotent, so re-stripping the first line of the
first block (already stripped by the parser) changes nothing. -/
theorem prep_assemble (chunks : List Str) :
    prepBlocks (assembleBlocks chunks) = assembleBlocks chunks := by
  unfold assembleBlocks
  cases hk : chunks.map splitLines with
  | nil => rfl
  | cons b bs =>
    cases b with
    | nil => rfl
    | cons l ls =>
      show prepBlocks ((strip_bom l :: ls) :: bs) = (strip_bom l :: ls) :: bs
      have h1 : prepBlocks ((strip_bom l :: ls) :: bs) =
          (strip_bom (strip_bom l) :: ls) :: bs := rfl
      rw [h1]
      unfold strip_bom
      rw [List.dropWhile_idempotent]

theorem prep_split (s : Str) : prepBlocks (split_srt s) = split_srt s := by
  unfold split_srt
  by_cases hs : s = []
  · rw [if_pos hs]; rfl
  · rw [if_neg hs]
    exact prep_assemble _

/-- **C1.** `translate_srt_with_progress` preserves the document
structure: whatever list of translated strings the engines produce, the
output has the same number of blocks, each block has the same number of
lines, and every line classified as an Index line or a Timestamp line is
byte-for-byte unchanged. -/
theorem claim_C1_structure_preserved (nfc : Str → Str) (srt : Str)
    (translated : List Str) :
    (translate_core nfc (split_srt srt) translated).length = (split_srt srt).length ∧
    (∀ bi, ((translate_core nfc (split_srt srt) translated).getD bi []).length =
      ((split_srt srt).getD bi []).length) ∧
    (∀ bi li, is_index_line (lineAt (split_srt srt) bi li) = true ∨
        is_time_line (lineAt (split_srt srt) bi li) = true →
      lineAt (translate_core nfc (split_srt srt) translated) bi li =
        lineAt (split_srt srt) bi li) := by
  have hcore : translate_core nfc (split_srt srt) translated =
      writeBack nfc (split_srt srt) (placementsOf (split_srt srt)) translated := by
    unfold translate_core
    rw [prep_split]
  refine ⟨?_, ?_, ?_⟩
  · rw [hcore, writeBack_length]
  · intro bi; rw [hcore, writeBack_block_length]
  · intro bi li h
    rw [hcore]
    apply writeBack_keep
    intro p hp
    by_cases hbi : p.1 = bi
    · right
      intro hmem
      have hmm := placement_mem _ p hp li hmem
      rw [hbi] at hmm
      rw [textIdxs_mem] at hmm
      unfold lineAt at h
      rcases h with h | h
      · rw [h] at hmm
        exact Bool.noConfusion hmm.2.1
      · rw [h] at hmm
        exact Bool.noConfusion hmm.2.2.1
    · left; exact hbi

/-- Witness for C1: a concrete two-line cue; the index and timestamp lines
survive an arbitrary (here: one-string) translation untouched. -/
theorem claim_C1_structure_preserved_witness :
    is_index_line (lineAt (split_srt ("1\n00:00:01,000 --> 00:00:02,000\nHi").data) 0 0)
      = true ∧
    lineAt (translate_core id (split_srt ("1\n00:00:01,000 --> 00:00:02,000\nHi").data)
        [("Hej").data]) 0 0 =
      lineAt (split_srt ("1\n00:00:01,000 --> 00:00:02,000\nHi").data) 0 0 ∧
    lineAt (translate_core id (split_srt ("1\n00:00:01,000 --> 00:00:02,000\nHi").data)
        [("Hej").data]) 0 1 =
      lineAt (split_srt ("1\n00:00:01,000 --> 00:00:02,000\nHi").data) 0 1 :=
  ⟨by decide,
   (claim_C1_structure_preserved id ("1\n00:00:01,000 --> 00:00:02,000\nHi").data
      [("Hej").data]).2.2 0 0 (Or.inl (by decide)),
   (claim_C1_structure_preserved id ("1\n00:00:01,000 --> 00:00:02,000\nHi").data
      [("Hej").data]).2.2 0 1 (Or.inr (by decide))⟩

/-! ### C6: the marker predicate vs. the spec's "no lowercase letters" -/

/-- The marker condition exactly as the claim states it: after stripping
markup tag spans and trimming, the content is non-empty, at most 40
characters, contains at least one alphabetic character and contains no
lowercase letter. -/
def marker_claimed (line : Str) : Bool :=
  let txt := strip (stripTags line)
  txt ≠ [] && txt.length ≤ 40 && txt.any pyIsAlpha && !(txt.any pyIsLower)

/-- The marker condition as the code actually implements it: instead of
"no lowercase letters" it checks membership in the fixed character class
`[a-zåäöæøéèáíóúñçß]` — lowercase letters outside that class (e.g.
Cyrillic) are not excluded. -/
def marker_amended (line : Str) : Bool :=
  let txt := strip (stripTags line)
  txt ≠ [] && txt.length ≤ 40 && txt.any pyIsAlpha &&
    txt.all (fun c => !inAllcapsBan c)

/-- **C6 counterexample.** The single Cyrillic lowercase letter `б` (a
Unicode lowercase letter, `isalpha` and `islower` both true in Python) is
accepted as a marker by `_is_allcaps_marker`, yet the claimed condition
("contains no lowercase letters") rejects it — the claimed equivalence is
false. -/
theorem claim_C6_counterexample :
    is_allcaps_marker ("б").data = true ∧ marker_claimed ("б").data = false ∧
    pyIsLower 'б' = true := by decide

/-- **C6 amended.** `_is_allcaps_marker(line)` returns true iff, after
stripping markup tag spans and trimming, the content is non-empty, at most
40 characters, contains at least one alphabetic character, and contains no
character of the fixed lowercase class `a`–`z`, `å ä ö æ ø é è á í ó ú ñ ç
ß` (rather than "no lowercase letters" in general). -/
theorem claim_C6_amended (line : Str) :
    is_allcaps_marker line = marker_amended line := by
  unfold is_allcaps_marker marker_amended allcapsMatch
  set txt := strip (stripTags line) with htxt
  by_cases h0 : txt.length = 0
  · rw [if_pos h0]
    have he : txt = [] := List.eq_nil_of_length_eq_zero h0
    rw [he]
    simp
  · rw [if_neg h0]
    have hne : txt ≠ [] := by
      intro h
      rw [h] at h0
      exact h0 rfl
    cases hA : (decide (txt.length ≤ 40)) <;>
      cases hB : txt.all (fun c => !inAllcapsBan c) <;>
        cases hC : txt.any pyIsAlpha <;>
          simp [hne, hA, hB, hC]

/-! ### C7: engine selection and the fallback chain -/

theorem select_nllb_err (nres lres : List (Nat × Nat) × Option (List Str))
    (gps : List Str) (h : nres.2 = none) :
    selectTranslated ("nllb").data nres lres gps = (nres.1, .error ()) := by
  obtain ⟨tr, o⟩ := nres
  simp only at h
  subst h
  rfl

theorem select_libre_err (nres lres : List (Nat × Nat) × Option (List Str))
    (gps : List Str) (h : lres.2 = none) :
    selectTranslated ("libre").data nres lres gps = (lres.1, .error ()) := by
  obtain ⟨tr, o⟩ := lres
  simp only at h
  subst h
  show ([] ++ tr, Except.error ()) = (tr, Except.error ())
  rw [List.nil_append]

theorem select_auto_ok (nres lres : List (Nat × Nat) × Option (List Str))
    (gps : List Str) :
    ∃ tr t, selectTranslated ("auto").data nres lres gps = (tr, .ok t) ∧
      (nres.2 = some t ∨ lres.2 = some t ∨ t = gps) ∧
      (nres.2 = none → lres.2 = none → t = gps) := by
  obtain ⟨ntr, no⟩ := nres
  obtain ⟨ltr, lo⟩ := lres
  cases no with
  | none =>
    cases lo with
    | none => exact ⟨_, gps, rfl, Or.inr (Or.inr rfl), fun _ _ => rfl⟩
    | some lt2 =>
      by_cases hl : lt2 = []
      · subst hl
        exact ⟨_, gps, rfl, Or.inr (Or.inr rfl), fun _ h => Option.noConfusion h⟩
      · refine ⟨ntr ++ ltr, lt2, ?_, Or.inr (Or.inl rfl), fun _ h => Option.noConfusion h⟩
        show (if lt2 = [] then (ntr ++ ltr ++ (argos_translate gps).1,
            Except.ok (argos_translate gps).2)
          else (ntr ++ ltr, Except.ok lt2) :
          List (Nat × Nat) × Except Unit (List Str)) = (ntr ++ ltr, Except.ok lt2)
        rw [if_neg hl]
  | some nt =>
    by_cases hn : nt = []
    · subst hn
      cases lo with
      | none => exact ⟨_, gps, rfl, Or.inr (Or.inr rfl), fun h _ => Option.noConfusion h⟩
      | some lt2 =>
        by_cases hl : lt2 = []
        · subst hl
          exact ⟨_, gps, rfl, Or.inr (Or.inr rfl), fun h _ => Option.noConfusion h⟩
        · refine ⟨ntr ++ ltr, lt2, ?_, Or.inr (Or.inl rfl), fun h _ => Option.noConfusion h⟩
          show (if lt2 = [] then (ntr ++ ltr ++ (argos_translate gps).1,
              Except.ok (argos_translate gps).2)
            else (ntr ++ ltr, Except.ok lt2) :
            List (Nat × Nat) × Except Unit (List Str)) = (ntr ++ ltr, Except.ok lt2)
          rw [if_neg hl]
    · refine ⟨ntr ++ [], nt, ?_, Or.inl rfl, fun h _ => Option.noConfusion h⟩
      show (match (if nt = [] ∧ ((("auto").data : Str) = ("libre").data ∨
              (("auto").data : Str) = ("auto").data) then
            match (ltr, lo) with
            | (tr, some t) => (tr, Except.ok t)
            | (tr, none) =>
              if (("auto").data : Str) = ("libre").data then (tr, Except.error ())
              else (tr, Except.ok [])
          else ([], Except.ok nt) : List (Nat × Nat) × Except Unit (List Str)) with
        | (tr2, Except.error e) => (ntr ++ tr2, Except.error e)
        | (tr2, Except.ok t2) =>
          if t2 = [] then (ntr ++ tr2 ++ (argos_translate gps).1,
            Except.ok (argos_translate gps).2)
          else (ntr ++ tr2, Except.ok t2)) = (ntr ++ [], Except.ok nt)
      rw [if_neg (show ¬(nt = [] ∧ ((("auto").data : Str) = ("libre").data ∨
        (("auto").data : Str) = ("auto").data)) from fun hc => hn hc.1)]
      show (if nt = [] then (ntr ++ [] ++ (argos_translate gps).1,
          Except.ok (argos_translate gps).2)
        else (ntr ++ [], Except.ok nt) :
        List (Nat × Nat) × Except Unit (List Str)) = (ntr ++ [], Except.ok nt)
      rw [if_neg hn]

/-- **C7.** If the engine selector names `nllb` (resp. `libre`) and that
backend fails, the failure propagates to the caller and no other backend
is consulted; with `auto`, the driver always returns normally, the final
document is written from one backend's full output on the complete group
list (or the identity pass-through), never a mix, and when both real
backends fail the identity pass-through is used. -/
theorem claim_C7_fallback_policy (nfc gloss : Str → Str)
    (nsrv lsrv : List Str → Option (List Str)) (bs : Nat) (srt : Str) :
    ((nllb_translate_batched nfc gloss nsrv
        (groupsOf (prepBlocks (split_srt srt))) bs).2 = none →
      groupsOf (prepBlocks (split_srt srt)) ≠ [] →
      (translate_srt_with_progress nfc gloss ("nllb").data nsrv lsrv bs srt).2 =
        .error ()) ∧
    ((lt_translate_batched lsrv (groupsOf (prepBlocks (split_srt srt))) bs).2 = none →
      groupsOf (prepBlocks (split_srt srt)) ≠ [] →
      (translate_srt_with_progress nfc gloss ("libre").data nsrv lsrv bs srt).2 =
        .error ()) ∧
    (∃ out, (translate_srt_with_progress nfc gloss ("auto").data nsrv lsrv bs srt).2 =
      Except.ok out) ∧
    (groupsOf (prepBlocks (split_srt srt)) ≠ [] →
      ∃ t, (translate_srt_with_progress nfc gloss ("auto").data nsrv lsrv bs srt).2 =
          .ok (join_srt (writeBack nfc (prepBlocks (split_srt srt))
            (placementsOf (prepBlocks (split_srt srt))) t)) ∧
        ((nllb_translate_batched nfc gloss nsrv
            (groupsOf (prepBlocks (split_srt srt))) bs).2 = some t ∨
         (lt_translate_batched lsrv (groupsOf (prepBlocks (split_srt srt))) bs).2 =
            some t ∨
         t = groupsOf (prepBlocks (split_srt srt))) ∧
        ((nllb_translate_batched nfc gloss nsrv
            (groupsOf (prepBlocks (split_srt srt))) bs).2 = none →
         (lt_translate_batched lsrv (groupsOf (prepBlocks (split_srt srt))) bs).2 =
            none →
         t = groupsOf (prepBlocks (split_srt srt)))) := by
  have hen : engineNorm ("nllb").data = ("nllb").data := by decide
  have hel : engineNorm ("libre").data = ("libre").data := by decide
  have hea : engineNorm ("auto").data = ("auto").data := by decide
  refine ⟨?_, ?_, ?_, ?_⟩
  · intro hn hg
    unfold translate_srt_with_progress
    rw [if_neg hg, hen, select_nllb_err _ _ _ hn]
  · intro hl hg
    unfold translate_srt_with_progress
    rw [if_neg hg, hel, select_libre_err _ _ _ hl]
  · by_cases hg : groupsOf (prepBlocks (split_srt srt)) = []
    · unfold translate_srt_with_progress
      rw [if_pos hg]
      exact ⟨_, rfl⟩
    · obtain ⟨tr, t, ht, _, _⟩ := select_auto_ok
        (nllb_translate_batched nfc gloss nsrv (groupsOf (prepBlocks (split_srt srt))) bs)
        (lt_translate_batched lsrv (groupsOf (prepBlocks (split_srt srt))) bs)
        (groupsOf (prepBlocks (split_srt srt)))
      unfold translate_srt_with_progress
      rw [if_neg hg, hea, ht]
      exact ⟨_, rfl⟩
  · intro hg
    obtain ⟨tr, t, ht, hsrc, hid⟩ := select_auto_ok
      (nllb_translate_batched nfc gloss nsrv (groupsOf (prepBlocks (split_srt srt))) bs)
      (lt_translate_batched lsrv (groupsOf (prepBlocks (split_srt srt))) bs)
      (groupsOf (prepBlocks (split_srt srt)))
    unfold translate_srt_with_progress
    rw [if_neg hg, hea, ht]
    exact ⟨t, rfl, hsrc, hid⟩

/-- Witness for C7: one-cue document, both backends always failing:
explicit `nllb` propagates the failure, `auto` completes. -/
theorem claim_C7_fallback_policy_witness :
    (translate_srt_with_progress id id ("nllb").data (fun _ => none) (fun _ => none) 64
      ("Hi").data).2 = .error () ∧
    (∃ out, (translate_srt_with_progress id id ("auto").data (fun _ => none)
      (fun _ => none) 64 ("Hi").data).2 = Except.ok out) :=
  ⟨(claim_C7_fallback_policy id id (fun _ => none) (fun _ => none) 64 ("Hi").data).1
      (by decide) (by decide),
   (claim_C7_fallback_policy id id (fun _ => none) (fun _ => none) 64 ("Hi").data).2.2.1⟩

/-! ### C9: progress reporting -/

/-- Total number of strings in a batch list. -/
def sumLens (batches : List (List Str)) : Nat := (batches.map List.length).sum

theorem runBatches_chain (srv : List Str → Option (List Str)) (total : Nat) :
    ∀ (batches : List (List Str)) (done : Nat), done ≤ total →
    List.Chain' (fun a b : Nat × Nat => a.2 ≤ b.2)
      ((total, done) :: (runBatches srv total batches done).1) := by
  intro batches
  induction batches with
  | nil => intro done _; simp [runBatches]
  | cons b bs ih =>
    intro done hdone
    rw [runBatches]
    cases hs : srv b with
    | none => simp
    | some out =>
      simp only
      rw [List.chain'_cons]
      constructor
      · show done ≤ min total (done + b.length)
        omega
      · exact ih (min total (done + b.length)) (by omega)

theorem runBatches_last (srv : List Str → Option (List Str)) (total : Nat) :
    ∀ (batches : List (List Str)) (done : Nat), done ≤ total →
    (runBatches srv total batches done).2.2 = true →
    ((total, done) :: (runBatches srv total batches done).1).getLast? =
      some (total, min total (done + sumLens batches)) := by
  intro batches
  induction batches with
  | nil =>
    intro done hdone _
    show some (total, done) = some (total, min total (done + sumLens []))
    have : sumLens [] = 0 := rfl
    rw [this]
    have : min total (done + 0) = done := by omega
    rw [this]
  | cons b bs ih =>
    intro done hdone hok
    rw [runBatches] at hok ⊢
    cases hs : srv b with
    | none => rw [hs] at hok; exact Bool.noConfusion hok
    | some out =>
      rw [hs] at hok
      simp only at hok ⊢
      rw [List.getLast?_cons_cons]
      have h2 := ih (min total (done + b.length)) (by omega) hok
      rw [h2]
      have hsum : sumLens (b :: bs) = b.length + sumLens bs := by
        show (List.length b :: bs.map List.length).sum = b.length + sumLens bs
        rw [List.sum_cons]
        rfl
      have : min total (min total (done + b.length) + sumLens bs) =
          min total (done + sumLens (b :: bs)) := by
        rw [hsum]
        omega
      rw [this]

theorem chunksGo_flatten (bs : Nat) (hbs : 1 ≤ bs) :
    ∀ (fuel : Nat) (l : List Str), l.length ≤ fuel →
    (chunksGo bs fuel l).flatten = l := by
  intro fuel
  induction fuel with
  | zero =>
    intro l hl
    have : l = [] := List.eq_nil_of_length_eq_zero (by omega)
    subst this
    rfl
  | succ f ih =>
    intro l hl
    cases l with
    | nil => rfl
    | cons x xs =>
      show ((x :: xs).take bs :: chunksGo bs f ((x :: xs).drop bs)).flatten = x :: xs
      rw [List.flatten_cons]
      rw [ih ((x :: xs).drop bs) (by simp only [List.length_drop, List.length_cons] at hl ⊢; omega)]
      exact List.take_append_drop bs (x :: xs)

theorem sumLens_pyChunks (l : List Str) (bs : Nat) (hbs : 1 ≤ bs) :
    sumLens (pyChunks l bs) = l.length := by
  unfold pyChunks
  rw [if_neg (by omega)]
  unfold sumLens
  rw [← List.length_flatten, chunksGo_flatten bs hbs l.length l (Nat.le_refl _)]

theorem nllb_trace_props (nfc gloss : Str → Str) (srv : List Str → Option (List Str))
    (lines : List Str) (bs : Nat) (hbs : 1 ≤ bs) (hl : lines ≠ []) :
    (nllb_translate_batched nfc gloss srv lines bs).1.head? =
      some (lines.length, 0) ∧
    List.Chain' (fun a b : Nat × Nat => a.2 ≤ b.2)
      (nllb_translate_batched nfc gloss srv lines bs).1 ∧
    (∀ t, (nllb_translate_batched nfc gloss srv lines bs).2 = some t →
      (nllb_translate_batched nfc gloss srv lines bs).1.getLast? =
        some (lines.length, lines.length)) := by
  unfold nllb_translate_batched
  rw [if_neg hl]
  simp only
  have hlen : ((lines.map protect_tags).map (fun p => gloss p.1)).length =
      lines.length := by
    rw [List.length_map, List.length_map]
  have hchain := runBatches_chain srv
    ((lines.map protect_tags).map (fun p => gloss p.1)).length
    (pyChunks ((lines.map protect_tags).map (fun p => gloss p.1)) bs) 0 (Nat.zero_le _)
  by_cases hok : (runBatches srv
      ((lines.map protect_tags).map (fun p => gloss p.1)).length
      (pyChunks ((lines.map protect_tags).map (fun p => gloss p.1)) bs) 0).2.2 = true
  · rw [hok]
    simp only [if_true]
    refine ⟨by rw [hlen]; rfl, hchain, ?_⟩
    intro t _
    have h2 := runBatches_last srv
      ((lines.map protect_tags).map (fun p => gloss p.1)).length
      (pyChunks ((lines.map protect_tags).map (fun p => gloss p.1)) bs) 0
      (Nat.zero_le _) hok
    rw [sumLens_pyChunks _ bs hbs] at h2
    have h3 : min ((lines.map protect_tags).map (fun p => gloss p.1)).length
        (0 + ((lines.map protect_tags).map (fun p => gloss p.1)).length) =
        ((lines.map protect_tags).map (fun p => gloss p.1)).length := by omega
    rw [h3] at h2
    rw [← hlen]
    exact h2
  · rw [Bool.not_eq_true] at hok
    rw [hok]
    simp only [Bool.false_eq_true, if_false]
    refine ⟨by rw [hlen]; rfl, hchain, ?_⟩
    intro t ht
    exact Option.noConfusion ht

theorem lt_trace_props (srv : List Str → Option (List Str))
    (lines : List Str) (bs : Nat) (hbs : 1 ≤ bs) (hl : lines ≠ []) :
    (lt_translate_batched srv lines bs).1.head? = some (lines.length, 0) ∧
    List.Chain' (fun a b : Nat × Nat => a.2 ≤ b.2)
      (lt_translate_batched srv lines bs).1 ∧
    (∀ t, (lt_translate_batched srv lines bs).2 = some t →
      (lt_translate_batched srv lines bs).1.getLast? =
        some (lines.length, lines.length)) := by
  unfold lt_translate_batched
  rw [if_neg hl]
  simp only
  refine ⟨rfl, runBatches_chain srv lines.length (pyChunks lines bs) 0 (Nat.zero_le _), ?_⟩
  intro t ht
  by_cases hok : (runBatches srv lines.length (pyChunks lines bs) 0).2.2 = true
  · have h2 := runBatches_last srv lines.length (pyChunks lines bs) 0
      (Nat.zero_le _) hok
    rw [sumLens_pyChunks lines bs hbs] at h2
    have h3 : min lines.length (0 + lines.length) = lines.length := by omega
    rw [h3] at h2
    exact h2
  · rw [Bool.not_eq_true] at hok
    rw [hok] at ht
    simp at ht

/-- **C9 counterexample.** A whole `auto` job in which NLLB succeeds on
batch 1 and fails on batch 2, after which LibreTranslate succeeds:
the job's progress sequence is `(2,0), (2,1), (2,0), (2,1), (2,2)` —
`completed` drops from 1 back to 0 at the fallback, so the claimed
whole-job monotonicity is false. -/
theorem claim_C9_counterexample :
    (translate_srt_with_progress id id ("auto").data
      (fun b => if b = [("Hello").data] then some [("Salut").data] else none)
      (fun b => some (b.map (fun _ => ("LT").data))) 1
      ("1\n00:00:01,000 --> 00:00:02,000\nHello\n\n2\n00:00:03,000 --> 00:00:04,000\nWorld").data).1
      = [(2, 0), (2, 1), (2, 0), (2, 1), (2, 2)] ∧
    ¬ List.Chain' (fun a b : Nat × Nat => a.2 ≤ b.2)
      [(2, 0), (2, 1), (2, 0), (2, 1), (2, 2)] := by
  constructor
  · decide
  · intro h
    rw [List.chain'_cons, List.chain'_cons] at h
    exact absurd h.2.1 (by decide)

/-- **C9 amended.** Within one backend attempt (with `batch_size ≥ 1` as
at every call site), the progress sequence starts with `(T, 0)` before any
network call, is non-decreasing, and ends with `(T, T)` when the attempt
succeeds — for both batched backends.  Across a whole `auto` job the
sequence is the concatenation of the attempts' sequences, and `completed`
resets to 0 when a fallback starts, so monotonicity holds per attempt, not
per job. -/
theorem claim_C9_amended (nfc gloss : Str → Str)
    (nsrv lsrv : List Str → Option (List Str)) (lines : List Str) (bs : Nat)
    (hbs : 1 ≤ bs) (hl : lines ≠ []) :
    ((nllb_translate_batched nfc gloss nsrv lines bs).1.head? =
        some (lines.length, 0) ∧
      List.Chain' (fun a b : Nat × Nat => a.2 ≤ b.2)
        (nllb_translate_batched nfc gloss nsrv lines bs).1 ∧
      (∀ t, (nllb_translate_batched nfc gloss nsrv lines bs).2 = some t →
        (nllb_translate_batched nfc gloss nsrv lines bs).1.getLast? =
          some (lines.length, lines.length))) ∧
    ((lt_translate_batched lsrv lines bs).1.head? = some (lines.length, 0) ∧
      List.Chain' (fun a b : Nat × Nat => a.2 ≤ b.2)
        (lt_translate_batched lsrv lines bs).1 ∧
      (∀ t, (lt_translate_batched lsrv lines bs).2 = some t →
        (lt_translate_batched lsrv lines bs).1.getLast? =
          some (lines.length, lines.length))) :=
  ⟨nllb_trace_props nfc gloss nsrv lines bs hbs hl,
   lt_trace_props lsrv lines bs hbs hl⟩

/-- Witness for the amended C9 at a concrete two-line job. -/
theorem claim_C9_amended_witness :
    (nllb_translate_batched id id (fun b => some b) [("a").data, ("b").data] 1).1.head? =
      some (2, 0) ∧
    (lt_translate_batched (fun b => some b) [("a").data, ("b").data] 1).1.getLast? =
      some (2, 2) :=
  ⟨(claim_C9_amended id id (fun b => some b) (fun b => some b)
      [("a").data, ("b").data] 1 (by omega) (by simp)).1.1,
   (claim_C9_amended id id (fun b => some b) (fun b => some b)
      [("a").data, ("b").data] 1 (by omega) (by simp)).2.2.2
      [("a").data, ("b").data] (by decide)⟩

/-! ### C8: length-mismatched backend responses -/

/-- Truncate or pad a translated list to exactly `n` entries (missing
entries are the empty string). -/
def padStr (n : Nat) (t : List Str) : List Str :=
  t.take n ++ List.replicate (n - t.length) ([] : Str)

theorem writeBack_pad (nfc : Str → Str) :
    ∀ (ps : List (Nat × List Nat)) (blocks : List (List Str)) (t : List Str),
    writeBack nfc blocks ps t = writeBack nfc blocks ps (padStr ps.length t) := by
  intro ps
  induction ps with
  | nil => intro blocks t; rfl
  | cons p rest ih =>
    intro blocks t
    cases t with
    | nil =>
      have hpad : padStr (p :: rest).length ([] : List Str) =
          ([] : Str) :: List.replicate rest.length ([] : Str) := by
        show padStr (rest.length + 1) ([] : List Str) = _
        unfold padStr
        simp [List.replicate_succ]
      rw [hpad]
      show writeBack nfc (writeUnit blocks p.1 p.2 (nfc ([] : Str))) rest ([] : List Str) =
        writeBack nfc (writeUnit blocks p.1 p.2 (nfc ([] : Str))) rest
          (List.replicate rest.length ([] : Str))
      have h3 : List.replicate rest.length ([] : Str) = padStr rest.length [] := by
        unfold padStr
        simp
      rw [h3]
      exact ih _ []
    | cons x xs =>
      have hpad : padStr (p :: rest).length (x :: xs) = x :: padStr rest.length xs := by
        show padStr (rest.length + 1) (x :: xs) = _
        unfold padStr
        simp only [List.take_succ_cons, List.length_cons, List.cons_append]
        have h4 : rest.length + 1 - (xs.length + 1) = rest.length - xs.length := by omega
        rw [h4]
      rw [hpad]
      show writeBack nfc (writeUnit blocks p.1 p.2 (nfc x)) rest xs =
        writeBack nfc (writeUnit blocks p.1 p.2 (nfc x)) rest (padStr rest.length xs)
      exact ih _ xs

theorem nllb_result_length (nfc gloss : Str → Str) (srv : List Str → Option (List Str))
    (lines : List Str) (bs : Nat) :
    ∀ t, (nllb_translate_batched nfc gloss srv lines bs).2 = some t →
      t.length = min
        (runBatches srv ((lines.map protect_tags).map (fun p => gloss p.1)).length
          (pyChunks ((lines.map protect_tags).map (fun p => gloss p.1)) bs) 0).2.1.length
        lines.length := by
  intro t ht
  unfold nllb_translate_batched at ht
  by_cases hl : lines = []
  · rw [if_pos hl] at ht
    simp only [Option.some.injEq] at ht
    subst ht
    subst hl
    have hc : pyChunks ((([] : List Str).map protect_tags).map (fun p => gloss p.1)) bs
        = [] := by
      unfold pyChunks
      split <;> rfl
    rw [hc]
    simp [runBatches]
  · rw [if_neg hl] at ht
    simp only at ht
    by_cases hok : (runBatches srv ((lines.map protect_tags).map (fun p => gloss p.1)).length
        (pyChunks ((lines.map protect_tags).map (fun p => gloss p.1)) bs) 0).2.2 = true
    · rw [hok] at ht
      simp only [if_true, Option.some.injEq] at ht
      subst ht
      rw [List.length_map, List.length_zip, List.length_map, List.length_map,
        List.length_map, List.length_map]
    · rw [Bool.not_eq_true] at hok
      rw [hok] at ht
      simp at ht

/-- **C8 counterexample.** A document with two translation units, an NLLB
server that answers the batch of 2 strings with only 1 string:
`_nllb_translate_batched` returns the short list without any error, and
the driver pads the missing unit with the empty string and writes it into
the document — the response-length mismatch is not treated as a hard
failure, and the mismatched output is written back. -/
theorem claim_C8_counterexample :
    (nllb_translate_batched id id (fun _ => some [("Bonjour").data])
      (groupsOf (prepBlocks (split_srt
        ("1\n00:00:01,000 --> 00:00:02,000\nHello\n\n2\n00:00:03,000 --> 00:00:04,000\nWorld").data))) 64).2
      = some [("Bonjour").data] ∧
    (groupsOf (prepBlocks (split_srt
      ("1\n00:00:01,000 --> 00:00:02,000\nHello\n\n2\n00:00:03,000 --> 00:00:04,000\nWorld").data))).length = 2 ∧
    translate_srt_with_progress id id ("nllb").data (fun _ => some [("Bonjour").data])
      (fun _ => none) 64
      ("1\n00:00:01,000 --> 00:00:02,000\nHello\n\n2\n00:00:03,000 --> 00:00:04,000\nWorld").data
      = ([(2, 0), (2, 2)], .ok
        ("1\n00:00:01,000 --> 00:00:02,000\nBonjour\n\n2\n00:00:03,000 --> 00:00:04,000\n\n").data) := by
  refine ⟨by decide, by decide, by rfl⟩

/-- **C8 amended.** A length-mismatched response is not detected: the NLLB
wrapper returns a list of length `min(#responses, #sent)` (extra responses
are dropped by the `zip`), and at write-back the translated list is
implicitly truncated or padded with empty strings to the number of
placements — mismatched output is written into the document rather than
failing.  (Transport errors, modelled as `none`, are hard failures.) -/
theorem claim_C8_amended (nfc gloss : Str → Str) (srv : List Str → Option (List Str))
    (lines : List Str) (bs : Nat) (t : List Str)
    (ht : (nllb_translate_batched nfc gloss srv lines bs).2 = some t) :
    t.length = min
      (runBatches srv ((lines.map protect_tags).map (fun p => gloss p.1)).length
        (pyChunks ((lines.map protect_tags).map (fun p => gloss p.1)) bs) 0).2.1.length
      lines.length ∧
    (∀ (nfc2 : Str → Str) (blocks : List (List Str)) (ps : List (Nat × List Nat))
      (t2 : List Str),
      writeBack nfc2 blocks ps t2 = writeBack nfc2 blocks ps (padStr ps.length t2)) :=
  ⟨nllb_result_length nfc gloss srv lines bs t ht,
   fun nfc2 blocks ps t2 => writeBack_pad nfc2 ps blocks t2⟩

/-- Witness for the amended C8: a server that answers every batch with one
fixed string; two input lines yield a one-string result, `min 1 2 = 1`. -/
theorem claim_C8_amended_witness :
    ([("X").data] : List Str).length = min
      (runBatches (fun _ => some [("X").data])
        (((([("a").data, ("b").data] : List Str).map protect_tags).map
          (fun p => id p.1)).length)
        (pyChunks ((([("a").data, ("b").data] : List Str).map protect_tags).map
          (fun p => id p.1)) 64) 0).2.1.length
      ([("a").data, ("b").data] : List Str).length ∧
    (∀ (nfc2 : Str → Str) (blocks : List (List Str)) (ps : List (Nat × List Nat))
      (t2 : List Str),
      writeBack nfc2 blocks ps t2 = writeBack nfc2 blocks ps (padStr ps.length t2)) :=
  claim_C8_amended id id (fun _ => some [("X").data]) [("a").data, ("b").data] 64
    [("X").data] (by decide)

/-! ### String-matching infrastructure for the tag and sentinel proofs -/

theorem begins_cons (a b : Char) (as bs : Str) :
    begins (a :: as) (b :: bs) = (a = b && begins as bs) := rfl

theorem begins_nil (p : Str) : begins p [] = (p.isEmpty) := by
  cases p <;> rfl

theorem begins_iff (p : Str) : ∀ s, begins p s = true ↔ ∃ t, s = p ++ t := by
  induction p with
  | nil =>
    intro s
    constructor
    · intro _; exact ⟨s, rfl⟩
    · intro _; rfl
  | cons c cs ih =>
    intro s
    cases s with
    | nil =>
      constructor
      · intro h; exact Bool.noConfusion h
      · rintro ⟨t, ht⟩; exact List.noConfusion ht
    | cons d ds =>
      rw [begins_cons]
      constructor
      · intro h
        rw [Bool.and_eq_true] at h
        obtain ⟨h1, h2⟩ := h
        obtain ⟨t, ht⟩ := (ih ds).mp h2
        refine ⟨t, ?_⟩
        rw [List.cons_append, ← ht]
        have : c = d := by simpa using h1
        rw [this]
      · rintro ⟨t, ht⟩
        rw [List.cons_append] at ht
        injection ht with h1 h2
        rw [Bool.and_eq_true]
        exact ⟨by simp [h1], (ih ds).mpr ⟨t, h2⟩⟩

theorem begins_append_self (p t : Str) : begins p (p ++ t) = true :=
  (begins_iff p (p ++ t)).mpr ⟨t, rfl⟩

theorem begins_refl (p : Str) : begins p p = true := by
  have := begins_append_self p []
  rwa [List.append_nil] at this

theorem hasSub_cons (pat : Str) (c : Char) (s : Str) :
    hasSub pat (c :: s) = (begins pat (c :: s) || hasSub pat s) := rfl

theorem hasSub_iff (pat : Str) : ∀ s, hasSub pat s = true ↔ ∃ a b, s = a ++ pat ++ b := by
  intro s
  induction s with
  | nil =>
    show begins pat [] = true ↔ _
    rw [begins_nil]
    constructor
    · intro h
      have : pat = [] := by
        cases pat with
        | nil => rfl
        | cons x xs => exact Bool.noConfusion h
      exact ⟨[], [], by rw [this]; rfl⟩
    · rintro ⟨a, b, hab⟩
      have ha : a = [] := by
        cases a with
        | nil => rfl
        | cons x xs => exact List.noConfusion hab
      subst ha
      rw [List.nil_append] at hab
      have hb : pat = [] := by
        cases pat with
        | nil => rfl
        | cons x xs => exact List.noConfusion hab
      rw [hb]; rfl
  | cons c rest ih =>
    rw [hasSub_cons, Bool.or_eq_true]
    constructor
    · rintro (h | h)
      · obtain ⟨t, ht⟩ := (begins_iff pat _).mp h
        exact ⟨[], t, by rw [ht]; simp⟩
      · obtain ⟨a, b, hab⟩ := ih.mp h
        exact ⟨c :: a, b, by rw [hab]; simp⟩
    · rintro ⟨a, b, hab⟩
      cases a with
      | nil =>
        left
        rw [List.nil_append] at hab
        exact (begins_iff pat _).mpr ⟨b, hab⟩
      | cons x xs =>
        right
        rw [List.cons_append, List.cons_append] at hab
        injection hab with h1 h2
        exact ih.mpr ⟨xs, b, h2⟩

theorem hasSub_of_begins {pat s : Str} (h : begins pat s = true) :
    hasSub pat s = true := by
  obtain ⟨t, ht⟩ := (begins_iff pat s).mp h
  exact (hasSub_iff pat s).mpr ⟨[], t, by rw [ht]; rfl⟩

theorem hasSub_mono {pat s : Str} (a b : Str) (h : hasSub pat s = true) :
    hasSub pat (a ++ s ++ b) = true := by
  obtain ⟨x, y, hxy⟩ := (hasSub_iff pat s).mp h
  exact (hasSub_iff pat _).mpr ⟨a ++ x, y ++ b, by rw [hxy]; simp⟩

theorem not_hasSub_tail {pat : Str} {c : Char} {s : Str}
    (h : hasSub pat (c :: s) = false) : hasSub pat s = false := by
  rw [hasSub_cons, Bool.or_eq_false_iff] at h
  exact h.2

theorem not_begins_head {pat : Str} {c : Char} {s : Str}
    (h : hasSub pat (c :: s) = false) : begins pat (c :: s) = false := by
  rw [hasSub_cons, Bool.or_eq_false_iff] at h
  exact h.1

theorem hasSub_split (pat : Str) : ∀ (a b : Str), hasSub pat (a ++ b) = true →
    (∃ a1 a2, a = a1 ++ a2 ∧ a2 ≠ [] ∧ begins pat (a2 ++ b) = true) ∨
      hasSub pat b = true := by
  intro a
  induction a with
  | nil => intro b h; right; exact h
  | cons c rest ih =>
    intro b h
    rw [List.cons_append, hasSub_cons, Bool.or_eq_true] at h
    rcases h with h | h
    · left
      exact ⟨[], c :: rest, rfl, by simp, by rw [List.cons_append]; exact h⟩
    · rcases ih b h with ⟨a1, a2, h1, h2, h3⟩ | h4
      · left
        exact ⟨c :: a1, a2, by rw [h1]; rfl, h2, h3⟩
      · right
        exact h4

theorem mem_of_begins {pat s : Str} (h : begins pat s = true) {c : Char}
    (hc : c ∈ pat) : c ∈ s := by
  obtain ⟨t, ht⟩ := (begins_iff pat s).mp h
  rw [ht]
  exact List.mem_append_left t hc

/-- If no character of `pat` is a space, a prefix match of `pat` cannot
reach past a space: `pat` fits within the part before the space. -/
theorem begins_before_space (pat : Str) (hps : ∀ c ∈ pat, c ≠ ' ') :
    ∀ (l rest : Str), begins pat (l ++ ' ' :: rest) = true → pat.length ≤ l.length := by
  induction pat with
  | nil => intro l rest _; exact Nat.zero_le _
  | cons p ps ih =>
    intro l rest h
    cases l with
    | nil =>
      rw [List.nil_append, begins_cons, Bool.and_eq_true] at h
      have : p = ' ' := by simpa using h.1
      exact absurd this (hps p (List.mem_cons_self p ps))
    | cons a l2 =>
      rw [List.cons_append, begins_cons, Bool.and_eq_true] at h
      have := ih (fun c hc => hps c (List.mem_cons_of_mem p hc)) l2 rest h.2
      simp only [List.length_cons]
      omega

theorem begins_of_append_le (pat : Str) : ∀ (l t : Str),
    begins pat (l ++ t) = true → pat.length ≤ l.length → begins pat l = true := by
  induction pat with
  | nil => intro l t _ _; rfl
  | cons p ps ih =>
    intro l t h hl
    cases l with
    | nil => simp at hl
    | cons a l2 =>
      rw [List.cons_append, begins_cons, Bool.and_eq_true] at h
      rw [begins_cons, Bool.and_eq_true]
      simp only [List.length_cons] at hl
      exact ⟨h.1, ih l2 t h.2 (by omega)⟩

/-! Fuel-independence and step equations for `splitOnSub` and `replaceAll`. -/

theorem splitOnSubGo_fuel (pat : Str) (hp : pat ≠ []) :
    ∀ (f : Nat), ∀ (g : Nat) (s : Str), s.length ≤ f → s.length ≤ g →
    splitOnSubGo pat f s = splitOnSubGo pat g s := by
  intro f
  induction f with
  | zero =>
    intro g s hf _
    have : s = [] := List.eq_nil_of_length_eq_zero (by omega)
    subst this
    cases g <;> rfl
  | succ f2 ih =>
    intro g s hf hg
    cases s with
    | nil => cases g <;> rfl
    | cons a rest =>
      cases g with
      | zero => simp at hg
      | succ g2 =>
        show splitOnSubGo pat (f2 + 1) (a :: rest) = splitOnSubGo pat (g2 + 1) (a :: rest)
        rw [splitOnSubGo, splitOnSubGo]
        by_cases hb : pat ≠ [] ∧ begins pat (a :: rest) = true
        · rw [if_pos hb, if_pos hb]
          have hlp : 1 ≤ pat.length := by
            cases pat with
            | nil => exact absurd rfl hp
            | cons x xs => simp
          have hd : ((a :: rest).drop pat.length).length ≤ f2 := by
            simp only [List.length_drop, List.length_cons]
            simp only [List.length_cons] at hf
            omega
          have hd2 : ((a :: rest).drop pat.length).length ≤ g2 := by
            simp only [List.length_drop, List.length_cons]
            simp only [List.length_cons] at hg
            omega
          rw [ih _ _ hd hd2]
        · rw [if_neg hb, if_neg hb]
          have hr : rest.length ≤ f2 := by
            simp only [List.length_cons] at hf; omega
          have hr2 : rest.length ≤ g2 := by
            simp only [List.length_cons] at hg; omega
          rw [ih _ _ hr hr2]

theorem splitOnSub_step (pat : Str) (hp : pat ≠ []) (a : Char) (rest : Str) :
    splitOnSub pat (a :: rest) =
      if begins pat (a :: rest) = true then
        [] :: splitOnSub pat ((a :: rest).drop pat.length)
      else
        match splitOnSub pat rest with
        | l :: ls => (a :: l) :: ls
        | [] => [[a]] := by
  show splitOnSubGo pat (a :: rest).length (a :: rest) = _
  have hlen : (a :: rest).length = rest.length + 1 := rfl
  rw [hlen, splitOnSubGo]
  by_cases hb : begins pat (a :: rest) = true
  · rw [if_pos ⟨hp, hb⟩, if_pos hb]
    have hlp : 1 ≤ pat.length := by
      cases pat with
      | nil => exact absurd rfl hp
      | cons x xs => simp
    have : splitOnSubGo pat rest.length ((a :: rest).drop pat.length) =
        splitOnSub pat ((a :: rest).drop pat.length) := by
      apply splitOnSubGo_fuel pat hp
      · simp only [List.length_drop, List.length_cons]; omega
      · exact Nat.le_refl _
    rw [this]
  · rw [if_neg (fun hc => hb hc.2), if_neg hb]
    have : splitOnSubGo pat rest.length rest = splitOnSub pat rest :=
      splitOnSubGo_fuel pat hp rest.length rest.length rest (Nat.le_refl _) (Nat.le_refl _)
    rw [this]

theorem splitOnSub_ne_nil (pat : Str) (hp : pat ≠ []) :
    ∀ s, splitOnSub pat s ≠ [] := by
  intro s
  cases s with
  | nil => simp [splitOnSub, splitOnSubGo]
  | cons a rest =>
    rw [splitOnSub_step pat hp]
    by_cases hb : begins pat (a :: rest) = true
    · rw [if_pos hb]; simp
    · rw [if_neg hb]
      cases hs : splitOnSub pat rest with
      | nil => simp
      | cons l ls => simp

theorem splitOnSub_no_occ (pat : Str) (hp : pat ≠ []) :
    ∀ s, hasSub pat s = false → splitOnSub pat s = [s] := by
  intro s
  induction s with
  | nil => intro _; rfl
  | cons a rest ih =>
    intro h
    rw [splitOnSub_step pat hp, if_neg (by rw [not_begins_head h]; simp),
      ih (not_hasSub_tail h)]

theorem replaceAllGo_fuel (pat rep : Str) (hp : pat ≠ []) :
    ∀ (f : Nat), ∀ (g : Nat) (s : Str), s.length ≤ f → s.length ≤ g →
    replaceAllGo pat rep f s = replaceAllGo pat rep g s := by
  intro f
  induction f with
  | zero =>
    intro g s hf _
    have : s = [] := List.eq_nil_of_length_eq_zero (by omega)
    subst this
    cases g <;> rfl
  | succ f2 ih =>
    intro g s hf hg
    cases s with
    | nil => cases g <;> rfl
    | cons a rest =>
      cases g with
      | zero => simp at hg
      | succ g2 =>
        show replaceAllGo pat rep (f2 + 1) (a :: rest) =
          replaceAllGo pat rep (g2 + 1) (a :: rest)
        rw [replaceAllGo, replaceAllGo]
        by_cases hb : pat ≠ [] ∧ begins pat (a :: rest) = true
        · rw [if_pos hb, if_pos hb]
          have hlp : 1 ≤ pat.length := by
            cases pat with
            | nil => exact absurd rfl hp
            | cons x xs => simp
          have hd : ((a :: rest).drop pat.length).length ≤ f2 := by
            simp only [List.length_drop, List.length_cons]
            simp only [List.length_cons] at hf
            omega
          have hd2 : ((a :: rest).drop pat.length).length ≤ g2 := by
            simp only [List.length_drop, List.length_cons]
            simp only [List.length_cons] at hg
            omega
          rw [ih _ _ hd hd2]
        · rw [if_neg hb, if_neg hb]
          have hr : rest.length ≤ f2 := by
            simp only [List.length_cons] at hf; omega
          have hr2 : rest.length ≤ g2 := by
            simp only [List.length_cons] at hg; omega
          rw [ih _ _ hr hr2]

theorem replaceAll_step (pat rep : Str) (hp : pat ≠ []) (a : Char) (rest : Str) :
    replaceAll (a :: rest) pat rep =
      if begins pat (a :: rest) = true then
        rep ++ replaceAll ((a :: rest).drop pat.length) pat rep
      else
        a :: replaceAll rest pat rep := by
  show replaceAllGo pat rep (a :: rest).length (a :: rest) = _
  have hlen : (a :: rest).length = rest.length + 1 := rfl
  rw [hlen, replaceAllGo]
  by_cases hb : begins pat (a :: rest) = true
  · rw [if_pos ⟨hp, hb⟩, if_pos hb]
    have hlp : 1 ≤ pat.length := by
      cases pat with
      | nil => exact absurd rfl hp
      | cons x xs => simp
    have : replaceAllGo pat rep rest.length ((a :: rest).drop pat.length) =
        replaceAll ((a :: rest).drop pat.length) pat rep := by
      apply replaceAllGo_fuel pat rep hp
      · simp only [List.length_drop, List.length_cons]; omega
      · exact Nat.le_refl _
    rw [this]
  · rw [if_neg (fun hc => hb hc.2), if_neg hb]
    have : replaceAllGo pat rep rest.length rest = replaceAll rest pat rep :=
      replaceAllGo_fuel pat rep hp rest.length rest.length rest
        (Nat.le_refl _) (Nat.le_refl _)
    rw [this]

theorem replaceAll_no_occ (pat rep : Str) (hp : pat ≠ []) :
    ∀ s, hasSub pat s = false → replaceAll s pat rep = s := by
  intro s
  induction s with
  | nil => intro _; rfl
  | cons a rest ih =>
    intro h
    rw [replaceAll_step pat rep hp, if_neg (by rw [not_begins_head h]; simp),
      ih (not_hasSub_tail h)]

/-! ### C10: the identity (argos) path applies trim plus NFC to unit lines -/

theorem sent_ne_nil : sentinel ≠ [] := by decide

theorem sent_no_space : ∀ c ∈ sentinel, c ≠ ' ' := by decide

theorem begins_sent_space (r : Str) : begins sentinel (' ' :: r) = false := rfl

theorem intercalate_singleton2 (sep a : Str) : List.intercalate sep [a] = a := by
  show ((List.intersperse sep [a]).flatten) = a
  show a ++ [] = a
  rw [List.append_nil]

theorem intercalate_cons2 (sep : Str) (a b : Str) (l : List Str) :
    List.intercalate sep (a :: b :: l) = a ++ sep ++ List.intercalate sep (b :: l) := by
  show ((List.intersperse sep (a :: b :: l)).flatten) = _
  rw [List.intersperse_cons_cons]
  show a ++ (sep ++ (List.intersperse sep (b :: l)).flatten) = _
  rw [← List.append_assoc]
  rfl

theorem splitOnSub_at_sent (T : Str) :
    splitOnSub sentinel (sentinel ++ T) = [] :: splitOnSub sentinel T := by
  have h1 : sentinel ++ T = '_' :: (['_', 'N', 'L', '_', '_'] ++ T) := rfl
  rw [h1, splitOnSub_step _ sent_ne_nil]
  rw [if_pos (by rw [← h1]; exact begins_append_self sentinel T)]
  have h2 : ('_' :: (['_', 'N', 'L', '_', '_'] ++ T)).drop sentinel.length = T := by
    rw [← h1]
    exact List.drop_left sentinel T
  rw [h2]

theorem splitOnSub_sep (T : Str) : ∀ (l : Str), hasSub sentinel l = false →
    splitOnSub sentinel (l ++ ' ' :: (sentinel ++ T)) =
      (l ++ [' ']) :: splitOnSub sentinel T := by
  intro l
  induction l with
  | nil =>
    intro _
    rw [List.nil_append, splitOnSub_step _ sent_ne_nil,
      if_neg (by rw [begins_sent_space]; simp), splitOnSub_at_sent]
    rfl
  | cons c l2 ih =>
    intro h
    rw [List.cons_append, splitOnSub_step _ sent_ne_nil]
    have hb : begins sentinel (c :: (l2 ++ ' ' :: (sentinel ++ T))) = false := by
      by_contra hcon
      rw [Bool.not_eq_false] at hcon
      have hlen := begins_before_space sentinel sent_no_space (c :: l2) (sentinel ++ T)
        (by rw [List.cons_append]; exact hcon)
      have hbl : begins sentinel (c :: l2) = true :=
        begins_of_append_le sentinel (c :: l2) (' ' :: (sentinel ++ T))
          (by rw [List.cons_append]; exact hcon) hlen
      rw [not_begins_head h] at hbl
      exact Bool.noConfusion hbl
    rw [if_neg (by rw [hb]; simp)]
    rw [ih (not_hasSub_tail h)]
    rfl

theorem strip_cons_space (s : Str) : strip (' ' :: s) = strip s := by
  unfold strip stripLeft
  rw [List.dropWhile_cons, if_pos (by decide)]

theorem stripRight_append_space (x : Str) : stripRight (x ++ [' ']) = stripRight x := by
  unfold stripRight
  rw [List.reverse_append]
  show ((' ' :: x.reverse).dropWhile isSpaceChar).reverse = _
  rw [List.dropWhile_cons, if_pos (by decide)]

theorem stripLeft_append_single (s : Str) :
    stripLeft (s ++ [' ']) = stripLeft s ++ [' '] ∨
      (stripLeft s = [] ∧ stripLeft (s ++ [' ']) = []) := by
  induction s with
  | nil =>
    right
    constructor
    · rfl
    · show ([' '] : Str).dropWhile isSpaceChar = []
      rw [List.dropWhile_cons, if_pos (by decide)]
      rfl
  | cons c s2 ih =>
    by_cases hc : isSpaceChar c = true
    · have e1 : stripLeft ((c :: s2) ++ [' ']) = stripLeft (s2 ++ [' ']) := by
        show List.dropWhile isSpaceChar (c :: (s2 ++ [' '])) = _
        rw [List.dropWhile_cons, if_pos hc]; rfl
      have e2 : stripLeft (c :: s2) = stripLeft s2 := by
        show List.dropWhile isSpaceChar (c :: s2) = _
        rw [List.dropWhile_cons, if_pos hc]; rfl
      rw [e1, e2]
      exact ih
    · left
      have e1 : stripLeft ((c :: s2) ++ [' ']) = c :: (s2 ++ [' ']) := by
        show List.dropWhile isSpaceChar (c :: (s2 ++ [' '])) = _
        rw [List.dropWhile_cons, if_neg hc]
      have e2 : stripLeft (c :: s2) = c :: s2 := by
        show List.dropWhile isSpaceChar (c :: s2) = _
        rw [List.dropWhile_cons, if_neg hc]
      rw [e1, e2]
      rfl

theorem strip_append_space (s : Str) : strip (s ++ [' ']) = strip s := by
  unfold strip
  rcases stripLeft_append_single s with h | ⟨h1, h2⟩
  · rw [h, stripRight_append_space]
  · rw [h1, h2]

theorem splitOnSub_merge : ∀ (ls : List Str), ls ≠ [] →
    (∀ l ∈ ls, hasSub sentinel l = false) →
    (splitOnSub sentinel (List.intercalate sentSep ls)).map strip = ls.map strip := by
  intro ls
  induction ls with
  | nil => intro h _; exact absurd rfl h
  | cons a rest ih =>
    intro _ h
    cases rest with
    | nil =>
      rw [intercalate_singleton2,
        splitOnSub_no_occ sentinel sent_ne_nil a (h a (List.mem_cons_self a []))]
    | cons b rest2 =>
      rw [intercalate_cons2]
      have hshape : a ++ sentSep ++ List.intercalate sentSep (b :: rest2) =
          a ++ ' ' :: (sentinel ++ (' ' :: List.intercalate sentSep (b :: rest2))) := by
        show a ++ (' ' :: (sentinel ++ [' '])) ++ _ = _
        rw [List.append_assoc]
        simp
      rw [hshape, splitOnSub_sep _ a (h a (List.mem_cons_self a _))]
      rw [splitOnSub_step _ sent_ne_nil,
        if_neg (by rw [begins_sent_space]; simp)]
      cases hsp : splitOnSub sentinel (List.intercalate sentSep (b :: rest2)) with
      | nil => exact absurd hsp (splitOnSub_ne_nil sentinel sent_ne_nil _)
      | cons h0 t0 =>
        have hrec := ih (by simp) (fun l hl => h l (List.mem_cons_of_mem a hl))
        rw [hsp] at hrec
        show strip (a ++ [' ']) :: (strip (' ' :: h0) :: t0.map strip) = _
        rw [strip_append_space, strip_cons_space]
        show strip a :: ((h0 :: t0).map strip) = _
        rw [hrec]
        rfl

theorem assignParts_map (f : Nat → Str) :
    ∀ (idxs : List Nat) (block : List Str), idxs.Nodup →
    (∀ li ∈ idxs, li < block.length) →
    ∀ li ∈ idxs, (assignParts block idxs (idxs.map f)).getD li [] = f li := by
  intro idxs
  induction idxs with
  | nil => intro block _ _ li h; exact absurd h (List.not_mem_nil li)
  | cons i is ih =>
    intro block hnd hlt li hli
    have hstep : assignParts block (i :: is) ((i :: is).map f) =
        assignParts (block.set i (f i)) is (is.map f) := rfl
    rw [hstep]
    rcases List.mem_cons.mp hli with h | h
    · subst h
      have hni : li ∉ is := (List.nodup_cons.mp hnd).1
      rw [assignParts_keep is (is.map f) _ li hni]
      rw [getD_set_self, if_pos (hlt li hli)]
    · have hlen : ∀ lj ∈ is, lj < (block.set i (f i)).length := by
        intro lj hj
        rw [List.length_set]
        exact hlt lj (List.mem_cons_of_mem i hj)
      exact ih (block.set i (f i)) (List.nodup_cons.mp hnd).2 hlen li h

/-! ### C10: what the identity Argos pass-through actually writes back -/

theorem mergeRun_single (block : List Str) (li : Nat) :
    mergeRun block [li] = block.getD li [] := by
  show List.intercalate sentSep [block.getD li []] = _
  exact intercalate_singleton2 _ _

theorem mergeRun_eq (block : List Str) (run : List Nat) :
    mergeRun block run =
      List.intercalate sentSep (run.map (fun k => block.getD k [])) := rfl

theorem flushRun_mem (block : List Str) (run : List Nat) (u : Str × List Nat)
    (hu : u ∈ flushRun block run) : u = (mergeRun block run, run) ∧ run ≠ [] := by
  unfold flushRun at hu
  by_cases h : run = []
  · rw [if_pos h] at hu
    exact absurd hu (List.not_mem_nil u)
  · rw [if_neg h] at hu
    exact ⟨List.mem_singleton.mp hu, h⟩

theorem groupGo_text (block : List Str) :
    ∀ (l run : List Nat), ∀ u ∈ groupGo block l run, u.1 = mergeRun block u.2 := by
  intro l
  induction l with
  | nil =>
    intro run u hu
    rw [groupGo] at hu
    obtain ⟨he, -⟩ := flushRun_mem block run u hu
    rw [he]
  | cons li rest ih =>
    intro run u hu
    rw [groupGo] at hu
    by_cases hm : is_allcaps_marker (block.getD li [])
    · rw [if_pos hm] at hu
      rcases List.mem_append.mp hu with h | h
      · obtain ⟨he, -⟩ := flushRun_mem block run u h
        rw [he]
      · rcases List.mem_cons.mp h with he | h2
        · rw [he]
          exact (mergeRun_single block li).symm
        · exact ih [] u h2
    · rw [if_neg hm] at hu
      exact ih (run ++ [li]) u hu

theorem groupGo_ne (block : List Str) :
    ∀ (l run : List Nat), ∀ u ∈ groupGo block l run, u.2 ≠ [] := by
  intro l
  induction l with
  | nil =>
    intro run u hu
    rw [groupGo] at hu
    obtain ⟨he, hr⟩ := flushRun_mem block run u hu
    rw [he]
    exact hr
  | cons li rest ih =>
    intro run u hu
    rw [groupGo] at hu
    by_cases hm : is_allcaps_marker (block.getD li [])
    · rw [if_pos hm] at hu
      rcases List.mem_append.mp hu with h | h
      · obtain ⟨he, hr⟩ := flushRun_mem block run u h
        rw [he]
        exact hr
      · rcases List.mem_cons.mp h with he | h2
        · rw [he]
          simp
        · exact ih [] u h2
    · rw [if_neg hm] at hu
      exact ih (run ++ [li]) u hu

theorem textIdxs_nodup (block : List Str) : (textIdxs block).Nodup :=
  ((List.nodup_range _).filter _).filter _

theorem groupBlock_flat (block : List Str) :
    ((groupBlock block).map (fun u => u.2)).flatten = textIdxs block := by
  rw [← List.flatMap_def, groupBlock, groupGo_flat, List.nil_append]

theorem groupBlock_parts_nodup (block : List Str) :
    (∀ u ∈ groupBlock block, u.2.Nodup) ∧
      List.Pairwise (fun u v : Str × List Nat => List.Disjoint u.2 v.2)
        (groupBlock block) := by
  have h : (((groupBlock block).map (fun u => u.2)).flatten).Nodup := by
    rw [groupBlock_flat]
    exact textIdxs_nodup block
  obtain ⟨h1, h2⟩ := List.nodup_flatten.mp h
  constructor
  · intro u hu
    exact h1 _ (List.mem_map_of_mem _ hu)
  · exact List.pairwise_map.mp h2

theorem groupBlock_sub (block : List Str) (u : Str × List Nat)
    (hu : u ∈ groupBlock block) (li : Nat) (hli : li ∈ u.2) :
    li ∈ textIdxs block := by
  have h : li ∈ ((groupBlock block).map (fun v => v.2)).flatten :=
    List.mem_flatten.mpr ⟨u.2, List.mem_map_of_mem _ hu, hli⟩
  rwa [groupBlock_flat] at h

theorem buildGo_mem : ∀ (bs : List (List Str)) (n : Nat) (u : Str × Nat × List Nat),
    u ∈ buildGo n bs → ∃ j, j < bs.length ∧ u.2.1 = n + j ∧
      (u.1, u.2.2) ∈ groupBlock (bs.getD j []) := by
  intro bs
  induction bs with
  | nil =>
    intro n u h
    exact absurd h (List.not_mem_nil u)
  | cons b rest ih =>
    intro n u h
    rw [buildGo] at h
    rcases List.mem_append.mp h with h | h
    · obtain ⟨v, hv, he⟩ := List.mem_map.mp h
      refine ⟨0, Nat.succ_pos _, ?_, ?_⟩
      · rw [← he]
        exact (Nat.add_zero n).symm
      · rw [← he]
        exact hv
    · obtain ⟨j, hj, he, hm⟩ := ih (n + 1) u h
      exact ⟨j + 1, Nat.succ_lt_succ hj, by omega, hm⟩

theorem buildGo_pairwise : ∀ (bs : List (List Str)) (n : Nat),
    List.Pairwise (fun u v : Str × Nat × List Nat =>
      u.2.1 ≠ v.2.1 ∨ ∀ li ∈ u.2.2, li ∉ v.2.2) (buildGo n bs) := by
  intro bs
  induction bs with
  | nil =>
    intro n
    exact List.Pairwise.nil
  | cons b rest ih =>
    intro n
    rw [buildGo, List.pairwise_append]
    refine ⟨?_, ih (n + 1), ?_⟩
    · rw [List.pairwise_map]
      refine ((groupBlock_parts_nodup b).2).imp ?_
      intro u v hd
      right
      intro li hli
      exact hd hli
    · intro a ha v hv
      left
      obtain ⟨w, hw, he⟩ := List.mem_map.mp ha
      have h2 := buildGo_key_ge rest (n + 1) v hv
      rw [← he]
      show n ≠ v.2.1
      omega

theorem placements_pairwise (blocks : List (List Str)) :
    List.Pairwise (fun p q : Nat × List Nat => p.1 ≠ q.1 ∨ ∀ li ∈ p.2, li ∉ q.2)
      (placementsOf blocks) := by
  rw [placementsOf, List.pairwise_map]
  exact buildGo_pairwise blocks 0

theorem placements_props (blocks : List (List Str)) (p : Nat × List Nat)
    (hp : p ∈ placementsOf blocks) : p.2 ≠ [] ∧ p.2.Nodup := by
  rw [placementsOf] at hp
  obtain ⟨u, hu, he⟩ := List.mem_map.mp hp
  obtain ⟨j, hj, hbi, hm⟩ := buildGo_mem blocks 0 u hu
  constructor
  · rw [← he]
    exact groupGo_ne _ _ _ _ hm
  · rw [← he]
    exact (groupBlock_parts_nodup _).1 _ hm

theorem groupsOf_eq (blocks : List (List Str)) :
    groupsOf blocks = (placementsOf blocks).map
      (fun p => mergeRun (blocks.getD p.1 []) p.2) := by
  rw [groupsOf, placementsOf, List.map_map]
  apply List.map_congr_left
  intro u hu
  obtain ⟨j, hj, hbi, hm⟩ := buildGo_mem blocks 0 u hu
  have ht := groupGo_text (blocks.getD j []) _ _ _ hm
  show u.1 = mergeRun (blocks.getD u.2.1 []) u.2.2
  rw [hbi, Nat.zero_add]
  exact ht

theorem chooseParts_first (block : List Str) (idxs : List Nat) (text : Str)
    (h : ((splitOnSub sentinel text).map strip).length = idxs.length) :
    chooseParts block idxs text = (splitOnSub sentinel text).map strip := by
  unfold chooseParts
  rw [if_pos h]

theorem writeUnit_exact (nfc : Str → Str)
    (H1 : ∀ ls : List Str, ls ≠ [] →
      nfc (List.intercalate sentSep ls) = List.intercalate sentSep (ls.map nfc))
    (blocks : List (List Str)) (orig : List Str) (bi : Nat) (idxs : List Nat)
    (hnd : idxs.Nodup)
    (hlt : ∀ li ∈ idxs, li < (blocks.getD bi []).length)
    (H2 : ∀ li ∈ idxs, hasSub sentinel (nfc (orig.getD li [])) = false) :
    ∀ li ∈ idxs,
      lineAt (writeUnit blocks bi idxs (nfc (mergeRun orig idxs))) bi li =
        strip (nfc (orig.getD li [])) := by
  intro li hli
  have hbi : bi < blocks.length := by
    by_contra hc
    have h0 := hlt li hli
    rw [getD_of_le blocks bi [] (Nat.le_of_not_lt hc)] at h0
    exact absurd h0 (by simp)
  have hne : idxs ≠ [] := by
    intro h
    rw [h] at hli
    exact absurd hli (List.not_mem_nil li)
  unfold writeUnit
  by_cases hone : idxs.length = 1
  · rw [if_pos hone]
    obtain ⟨a, ha⟩ := List.length_eq_one.mp hone
    subst ha
    have hla : li = a := by simpa using hli
    subst hla
    unfold lineAt
    rw [getD_set_self, if_pos hbi]
    have hidx : ([li] : List Nat).getD 0 0 = li := rfl
    rw [hidx, getD_set_self, if_pos (hlt li hli), mergeRun_single]
  · rw [if_neg hone]
    have hne2 : idxs.map (fun k => orig.getD k []) ≠ [] := by
      intro hcon
      exact hne (List.map_eq_nil_iff.mp hcon)
    have hparts : (splitOnSub sentinel (nfc (mergeRun orig idxs))).map strip =
        ((idxs.map (fun k => orig.getD k [])).map nfc).map strip := by
      rw [mergeRun_eq, H1 _ hne2]
      apply splitOnSub_merge
      · intro hcon
        exact hne2 (List.map_eq_nil_iff.mp hcon)
      · intro l hl
        obtain ⟨x, hx, hxe⟩ := List.mem_map.mp hl
        obtain ⟨k, hk, hke⟩ := List.mem_map.mp hx
        rw [← hxe, ← hke]
        exact H2 k hk
    have hlen2 : ((splitOnSub sentinel (nfc (mergeRun orig idxs))).map strip).length =
        idxs.length := by
      rw [hparts]
      simp
    have hcp : chooseParts (blocks.getD bi []) idxs (nfc (mergeRun orig idxs)) =
        idxs.map (fun k => strip (nfc (orig.getD k []))) := by
      rw [chooseParts_first _ _ _ hlen2, hparts, List.map_map, List.map_map]
      rfl
    unfold lineAt
    rw [getD_set_self, if_pos hbi, hcp]
    exact assignParts_map (fun k => strip (nfc (orig.getD k []))) idxs
      (blocks.getD bi []) hnd hlt li hli

theorem writeBack_exact (nfc : Str → Str) (orig : List (List Str))
    (H1 : ∀ ls : List Str, ls ≠ [] →
      nfc (List.intercalate sentSep ls) = List.intercalate sentSep (ls.map nfc)) :
    ∀ (ps : List (Nat × List Nat)) (blocks : List (List Str)),
    (∀ p ∈ ps, p.2.Nodup ∧ ∀ li ∈ p.2, li < (blocks.getD p.1 []).length ∧
      hasSub sentinel (nfc ((orig.getD p.1 []).getD li [])) = false) →
    List.Pairwise (fun p q : Nat × List Nat => p.1 ≠ q.1 ∨ ∀ li ∈ p.2, li ∉ q.2) ps →
    ∀ p ∈ ps, ∀ li ∈ p.2,
      lineAt (writeBack nfc blocks ps
          (ps.map (fun q => mergeRun (orig.getD q.1 []) q.2))) p.1 li =
        strip (nfc ((orig.getD p.1 []).getD li [])) := by
  intro ps
  induction ps with
  | nil =>
    intro blocks _ _ p hp
    exact absurd hp (List.not_mem_nil p)
  | cons p0 rest ih =>
    intro blocks hprops hpw p hp li hli
    have hpw2 := List.pairwise_cons.mp hpw
    show lineAt (writeBack nfc
        (writeUnit blocks p0.1 p0.2 (nfc (mergeRun (orig.getD p0.1 []) p0.2))) rest
        (rest.map (fun q => mergeRun (orig.getD q.1 []) q.2))) p.1 li = _
    rcases List.mem_cons.mp hp with hpe | hpr
    · subst hpe
      have hk : ∀ q ∈ rest, q.1 ≠ p.1 ∨ li ∉ q.2 := by
        intro q hq
        rcases hpw2.1 q hq with h | h
        · exact Or.inl (Ne.symm h)
        · exact Or.inr (h li hli)
      rw [writeBack_keep nfc rest _ _ p.1 li hk]
      have hps := hprops p (List.mem_cons_self p rest)
      exact writeUnit_exact nfc H1 blocks (orig.getD p.1 []) p.1 p.2 hps.1
        (fun lj hlj => (hps.2 lj hlj).1) (fun lj hlj => (hps.2 lj hlj).2) li hli
    · have hprops2 : ∀ q ∈ rest, q.2.Nodup ∧ ∀ lj ∈ q.2,
          lj < ((writeUnit blocks p0.1 p0.2
            (nfc (mergeRun (orig.getD p0.1 []) p0.2))).getD q.1 []).length ∧
          hasSub sentinel (nfc ((orig.getD q.1 []).getD lj [])) = false := by
        intro q hq
        have hq0 := hprops q (List.mem_cons_of_mem p0 hq)
        refine ⟨hq0.1, fun lj hlj => ⟨?_, (hq0.2 lj hlj).2⟩⟩
        rw [writeUnit_block_length]
        exact (hq0.2 lj hlj).1
      exact ih (writeUnit blocks p0.1 p0.2 (nfc (mergeRun (orig.getD p0.1 []) p0.2)))
        hprops2 hpw2.2 p hpr li hli

theorem blocks_ext (xs ys : List (List Str))
    (hlen : xs.length = ys.length)
    (hblen : ∀ bi, (xs.getD bi []).length = (ys.getD bi []).length)
    (hline : ∀ bi li, lineAt xs bi li = lineAt ys bi li) : xs = ys := by
  apply List.ext_getElem hlen
  intro bi h1 h2
  have hb : xs.getD bi [] = ys.getD bi [] := by
    apply List.ext_getElem (hblen bi)
    intro li hl1 hl2
    have h := hline bi li
    unfold lineAt at h
    rw [List.getD_eq_getElem?_getD (xs.getD bi []), List.getElem?_eq_getElem hl1,
        List.getD_eq_getElem?_getD (ys.getD bi []), List.getElem?_eq_getElem hl2] at h
    exact h
  rw [List.getD_eq_getElem?_getD, List.getElem?_eq_getElem h1,
      List.getD_eq_getElem?_getD, List.getElem?_eq_getElem h2] at hb
  exact hb

/-- **C10 counterexample.** A document whose unit lines are already
trimmed (and NFC-normalised, taking `nfc = id`) does not round-trip
through the identity Argos fallback: the text line `baz` comes back as
`__NL__ baz`, because the merged unit `foo __NL__ bar __NL__ baz`
contains the sentinel token literally and the sentinel split yields three
parts for two lines, driving the reassembler into the word-preserving
reflow.  So the claim that such inputs round-trip exactly is false. -/
theorem claim_C10_counterexample :
    (∀ l ∈ [("foo __NL__ bar").data, ("baz").data], strip l = l) ∧
    translate_srt_with_progress id id ("auto").data (fun _ => none) (fun _ => none) 2
        ("1\n00:00:01,000 --> 00:00:02,000\nfoo __NL__ bar\nbaz").data =
      ([(1, 0), (1, 0), (1, 1)],
        Except.ok
          ("1\n00:00:01,000 --> 00:00:02,000\nfoo __NL__ bar\n__NL__ baz\n").data) ∧
    ("1\n00:00:01,000 --> 00:00:02,000\nfoo __NL__ bar\n__NL__ baz\n").data ≠
      ("1\n00:00:01,000 --> 00:00:02,000\nfoo __NL__ bar\nbaz\n").data :=
  ⟨by decide, by rfl, by decide⟩

/-- **C10 amended.** When the identity Argos fallback is the effective
backend, the translated list handed to the reassembler is exactly the
group list (`_argos_translate` is the identity).  Provided the
normaliser distributes over the sentinel glue (H1) and no unit line's
normalised form contains the sentinel token (H2) — both automatic for
`nfc = id` and sentinel-free text — the write-back replaces every line
belonging to a translation unit by its normalised, trimmed form
`strip (nfc line)`, leaves every other position (index, timestamp,
blank) untouched, and the whole document round-trips exactly iff
`strip ∘ nfc` fixes every unit line.  Without the sentinel-freedom
proviso the round-trip fails even for trimmed, normalised lines. -/
theorem claim_C10_amended (nfc : Str → Str) (blocks0 : List (List Str))
    (H1 : ∀ ls : List Str, ls ≠ [] →
      nfc (List.intercalate sentSep ls) = List.intercalate sentSep (ls.map nfc))
    (H2 : ∀ p ∈ placementsOf (prepBlocks blocks0), ∀ li ∈ p.2,
      hasSub sentinel (nfc (lineAt (prepBlocks blocks0) p.1 li)) = false) :
    (argos_translate (groupsOf (prepBlocks blocks0))).2 =
        groupsOf (prepBlocks blocks0) ∧
    (∀ p ∈ placementsOf (prepBlocks blocks0), ∀ li ∈ p.2,
      lineAt (translate_core nfc blocks0 (groupsOf (prepBlocks blocks0))) p.1 li =
        strip (nfc (lineAt (prepBlocks blocks0) p.1 li))) ∧
    (∀ bi li, (∀ p ∈ placementsOf (prepBlocks blocks0), p.1 ≠ bi ∨ li ∉ p.2) →
      lineAt (translate_core nfc blocks0 (groupsOf (prepBlocks blocks0))) bi li =
        lineAt (prepBlocks blocks0) bi li) ∧
    ((∀ p ∈ placementsOf (prepBlocks blocks0), ∀ li ∈ p.2,
        strip (nfc (lineAt (prepBlocks blocks0) p.1 li)) =
          lineAt (prepBlocks blocks0) p.1 li) →
      translate_core nfc blocks0 (groupsOf (prepBlocks blocks0)) = prepBlocks blocks0) := by
  have hcore : translate_core nfc blocks0 (groupsOf (prepBlocks blocks0)) =
      writeBack nfc (prepBlocks blocks0) (placementsOf (prepBlocks blocks0))
        (groupsOf (prepBlocks blocks0)) := rfl
  have hprops : ∀ p ∈ placementsOf (prepBlocks blocks0), p.2.Nodup ∧ ∀ li ∈ p.2,
      li < ((prepBlocks blocks0).getD p.1 []).length ∧
      hasSub sentinel (nfc (((prepBlocks blocks0).getD p.1 []).getD li [])) = false := by
    intro q hq
    refine ⟨(placements_props _ q hq).2, fun lj hlj => ⟨?_, H2 q hq lj hlj⟩⟩
    exact ((textIdxs_mem _ _).mp (placement_mem _ q hq lj hlj)).1
  have hmain : ∀ p ∈ placementsOf (prepBlocks blocks0), ∀ li ∈ p.2,
      lineAt (translate_core nfc blocks0 (groupsOf (prepBlocks blocks0))) p.1 li =
        strip (nfc (lineAt (prepBlocks blocks0) p.1 li)) := by
    intro p hp li hli
    rw [hcore, groupsOf_eq (prepBlocks blocks0)]
    exact writeBack_exact nfc (prepBlocks blocks0) H1
      (placementsOf (prepBlocks blocks0)) (prepBlocks blocks0) hprops
      (placements_pairwise _) p hp li hli
  have hkeep : ∀ bi li, (∀ p ∈ placementsOf (prepBlocks blocks0), p.1 ≠ bi ∨ li ∉ p.2) →
      lineAt (translate_core nfc blocks0 (groupsOf (prepBlocks blocks0))) bi li =
        lineAt (prepBlocks blocks0) bi li := by
    intro bi li h
    rw [hcore]
    exact writeBack_keep nfc _ _ _ bi li h
  refine ⟨rfl, hmain, hkeep, ?_⟩
  intro hfix
  rw [hcore]
  apply blocks_ext
  · exact writeBack_length nfc _ _ _
  · intro bi
    exact writeBack_block_length nfc _ _ _ bi
  · intro bi li
    by_cases hmem : ∃ p, p ∈ placementsOf (prepBlocks blocks0) ∧ p.1 = bi ∧ li ∈ p.2
    · obtain ⟨p, hp, hbi, hli⟩ := hmem
      subst hbi
      rw [← hcore, hmain p hp li hli, hfix p hp li hli]
    · apply writeBack_keep
      intro p hp
      by_cases h1 : p.1 = bi
      · exact Or.inr (fun h2 => hmem ⟨p, hp, h1, h2⟩)
      · exact Or.inl h1

/-- Witness for the amended C10 at a concrete one-cue document with a
two-line merged unit, `nfc = id`: the document round-trips exactly. -/
theorem claim_C10_amended_witness :
    translate_core id [[("Hi there").data, ("you all").data]]
        (groupsOf (prepBlocks [[("Hi there").data, ("you all").data]])) =
      prepBlocks [[("Hi there").data, ("you all").data]] :=
  (claim_C10_amended id [[("Hi there").data, ("you all").data]]
    (fun ls h => by rw [List.map_id]; rfl) (by decide)).2.2.2 (by decide)

/-! ### C3: the tag protect/restore round-trip -/

/-- The letters `TAG` common to every placeholder token. -/
def tagS : Str := ['T', 'A', 'G']

/-- Decimal digit characters. -/
def isDig (c : Char) : Bool :=
  c == '0' || c == '1' || c == '2' || c == '3' || c == '4' ||
  c == '5' || c == '6' || c == '7' || c == '8' || c == '9'

theorem isDig_ne_und {c : Char} (h : isDig c = true) : c ≠ '_' := by
  intro he
  subst he
  exact absurd h (by decide)

theorem digitChar_isDig (n : Nat) : isDig (digitChar n) = true := by
  unfold digitChar
  split <;> rfl

theorem digitChar_inj (m n : Nat) (hm : m < 10) (hn : n < 10)
    (h : digitChar m = digitChar n) : m = n := by
  interval_cases m <;> interval_cases n <;> revert h <;> decide

theorem natCharsGo_eq : ∀ (n f g : Nat), n < f → n < g →
    natCharsGo f n = natCharsGo g n := by
  intro n
  induction n using Nat.strong_induction_on with
  | _ n ih =>
    intro f g hf hg
    cases f with
    | zero => omega
    | succ f =>
      cases g with
      | zero => omega
      | succ g =>
        rw [natCharsGo, natCharsGo]
        by_cases h : n < 10
        · rw [if_pos h, if_pos h]
        · rw [if_neg h, if_neg h, ih (n / 10) (by omega) f g (by omega) (by omega)]

theorem natChars_step (n : Nat) : natChars n =
    if n < 10 then [digitChar n] else natChars (n / 10) ++ [digitChar (n % 10)] := by
  show natCharsGo (n + 1) n = _
  rw [natCharsGo]
  by_cases h : n < 10
  · rw [if_pos h, if_pos h]
  · rw [if_neg h, if_neg h,
      natCharsGo_eq (n / 10) n (n / 10 + 1) (by omega) (by omega)]
    rfl

theorem natChars_ne_nil (n : Nat) : natChars n ≠ [] := by
  rw [natChars_step]
  by_cases h : n < 10
  · rw [if_pos h]
    simp
  · rw [if_neg h]
    simp

theorem natChars_digits : ∀ (n : Nat), ∀ c ∈ natChars n, isDig c = true := by
  intro n
  induction n using Nat.strong_induction_on with
  | _ n ih =>
    intro c hc
    rw [natChars_step] at hc
    by_cases h : n < 10
    · rw [if_pos h] at hc
      have he : c = digitChar n := by simpa using hc
      rw [he]
      exact digitChar_isDig n
    · rw [if_neg h] at hc
      rcases List.mem_append.mp hc with h1 | h2
      · exact ih (n / 10) (by omega) c h1
      · have he : c = digitChar (n % 10) := by simpa using h2
        rw [he]
        exact digitChar_isDig _

theorem natChars_inj : ∀ (m n : Nat), natChars m = natChars n → m = n := by
  intro m
  induction m using Nat.strong_induction_on with
  | _ m ih =>
    intro n h
    rw [natChars_step m, natChars_step n] at h
    by_cases hm : m < 10 <;> by_cases hn : n < 10
    · rw [if_pos hm, if_pos hn] at h
      injection h with h1 _
      exact digitChar_inj m n hm hn h1
    · rw [if_pos hm, if_neg hn] at h
      have hlen := congrArg List.length h
      cases hnc : natChars (n / 10) with
      | nil => exact absurd hnc (natChars_ne_nil _)
      | cons x xs =>
        rw [hnc] at hlen
        simp at hlen
    · rw [if_neg hm, if_pos hn] at h
      have hlen := congrArg List.length h
      cases hnc : natChars (m / 10) with
      | nil => exact absurd hnc (natChars_ne_nil _)
      | cons x xs =>
        rw [hnc] at hlen
        simp at hlen
    · rw [if_neg hm, if_neg hn] at h
      obtain ⟨h1, h2⟩ := List.append_inj' h rfl
      have h3 := ih (m / 10) (by omega) (n / 10) h1
      injection h2 with h4 _
      have h5 := digitChar_inj _ _ (by omega) (by omega) h4
      omega

theorem begins_digits_align : ∀ (A B T U : Str),
    (∀ c ∈ A, isDig c = true) → (∀ c ∈ B, isDig c = true) →
    begins (A ++ '_' :: T) (B ++ '_' :: U) = true → A = B := by
  intro A
  induction A with
  | nil =>
    intro B T U _ hB h
    cases B with
    | nil => rfl
    | cons b B2 =>
      rw [List.nil_append, List.cons_append, begins_cons, Bool.and_eq_true] at h
      have hb : ('_' : Char) = b := by simpa using h.1
      have hd := hB b (List.mem_cons_self b B2)
      rw [← hb] at hd
      exact absurd hd (by decide)
  | cons a A2 ih =>
    intro B T U hA hB h
    cases B with
    | nil =>
      rw [List.cons_append, List.nil_append, begins_cons, Bool.and_eq_true] at h
      have ha : a = '_' := by simpa using h.1
      have hd := hA a (List.mem_cons_self a A2)
      rw [ha] at hd
      exact absurd hd (by decide)
    | cons b B2 =>
      rw [List.cons_append, List.cons_append, begins_cons, Bool.and_eq_true] at h
      have hab : a = b := by simpa using h.1
      rw [ih B2 T U (fun c hc => hA c (List.mem_cons_of_mem a hc))
        (fun c hc => hB c (List.mem_cons_of_mem b hc)) h.2, hab]

theorem tokenStr_eq (k : Nat) :
    tokenStr k = '_' :: '_' :: 'T' :: 'A' :: 'G' :: (natChars k ++ ['_', '_']) := rfl

theorem tok_ne_nil (k : Nat) : tokenStr k ≠ [] := by
  rw [tokenStr_eq]
  simp

theorem tok_begins_head {c : Char} (k : Nat) (s : Str) (hc : c ≠ '_') :
    begins (tokenStr k) (c :: s) = false := by
  show (decide (('_' : Char) = c) && _) = false
  rw [decide_eq_false (fun h => hc h.symm), Bool.false_and]

theorem tok_begins_tok (k j : Nat) (Z : Str)
    (h : begins (tokenStr k) (tokenStr j ++ Z) = true) : k = j := by
  rw [tokenStr_eq, tokenStr_eq] at h
  simp only [List.cons_append, begins_cons, Bool.and_eq_true, decide_eq_true_eq] at h
  have h2 := h.2.2.2.2.2
  rw [List.append_assoc] at h2
  have h3 : natChars k ++ '_' :: ['_'] = natChars k ++ ['_', '_'] := rfl
  rw [← h3] at h2
  have h4 : natChars j ++ (['_', '_'] ++ Z) = natChars j ++ '_' :: ('_' :: Z) := rfl
  rw [h4] at h2
  exact natChars_inj k j
    (begins_digits_align _ _ _ _ (natChars_digits k) (natChars_digits j) h2)

/-- The still-protected tail during restoration: token `k`, then the
segment after the `k`-th tag, then the rest. -/
def pendStr : Nat → List (Str × Str) → Str
  | _, [] => []
  | k, pr :: rest => tokenStr k ++ (pr.2 ++ pendStr (k + 1) rest)

/-- The original text rebuilt from the decomposition: each tag followed by
the segment after it. -/
def origStr : List (Str × Str) → Str
  | [] => []
  | pr :: rest => pr.1 ++ (pr.2 ++ origStr rest)

theorem TAG_not_begins : ∀ (seg : Str) (W : Str) (j : Nat) (pairs : List (Str × Str)),
    hasSub tagS seg = false →
    begins ('T' :: 'A' :: 'G' :: W) (seg ++ pendStr j pairs) = false := by
  intro seg W j pairs hseg
  match seg with
  | [] =>
    cases pairs with
    | nil => rfl
    | cons pr rest => rfl
  | [c1] =>
    show (decide ('T' = c1) && begins ('A' :: 'G' :: W) (pendStr j pairs)) = false
    cases pairs with
    | nil => rw [Bool.and_eq_false_iff]; right; rfl
    | cons pr rest => rw [Bool.and_eq_false_iff]; right; rfl
  | [c1, c2] =>
    show (decide ('T' = c1) && (decide ('A' = c2) &&
        begins ('G' :: W) (pendStr j pairs))) = false
    cases pairs with
    | nil =>
      rw [Bool.and_eq_false_iff]; right; rw [Bool.and_eq_false_iff]; right; rfl
    | cons pr rest =>
      rw [Bool.and_eq_false_iff]; right; rw [Bool.and_eq_false_iff]; right; rfl
  | c1 :: c2 :: c3 :: s3 =>
    rw [Bool.eq_false_iff]
    intro h
    simp only [List.cons_append, begins_cons, Bool.and_eq_true, decide_eq_true_eq] at h
    have hb : begins tagS (c1 :: c2 :: c3 :: s3) = true := by
      show (decide ('T' = c1) && (decide ('A' = c2) && (decide ('G' = c3) && true))) = true
      rw [decide_eq_true h.1, decide_eq_true h.2.1, decide_eq_true h.2.2.1]
      rfl
    rw [hasSub_of_begins hb] at hseg
    exact Bool.noConfusion hseg

theorem undTAG_not_begins : ∀ (seg : Str) (W : Str) (j : Nat)
    (pairs : List (Str × Str)), '_' ∉ seg →
    begins ('_' :: 'T' :: 'A' :: 'G' :: W) (seg ++ pendStr j pairs) = false := by
  intro seg W j pairs hseg
  cases seg with
  | nil =>
    cases pairs with
    | nil => rfl
    | cons pr rest => rfl
  | cons c s2 =>
    show (decide (('_' : Char) = c) && _) = false
    have hcc : ¬ (('_' : Char) = c) := by
      intro h
      rw [h] at hseg
      exact hseg (List.mem_cons_self c s2)
    rw [decide_eq_false hcc, Bool.false_and]

theorem no_tok_pend : ∀ (pairs : List (Str × Str)) (j k : Nat), k < j →
    (∀ pr ∈ pairs, '_' ∉ pr.2 ∧ hasSub tagS pr.2 = false) →
    hasSub (tokenStr k) (pendStr j pairs) = false := by
  intro pairs
  induction pairs with
  | nil =>
    intro j k _ _
    rfl
  | cons pr rest ih =>
    intro j k hk hps
    rw [Bool.eq_false_iff]
    intro h
    have hpr := hps pr (List.mem_cons_self pr rest)
    rcases hasSub_split (tokenStr k) (tokenStr j) _ h with ⟨a1, a2, hsplit, hne, hb⟩ | h2
    · rw [tokenStr_eq] at hsplit
      cases a1 with
      | nil =>
        simp only [List.append_eq, List.nil_append] at hsplit
        rw [← hsplit, ← tokenStr_eq] at hb
        exact absurd (tok_begins_tok k j _ hb) (by omega)
      | cons x1 a1 =>
        injection hsplit with hx1 hsplit
        cases a1 with
        | nil =>
          simp only [List.append_eq, List.nil_append] at hsplit
          rw [← hsplit] at hb
          simp [List.cons_append, begins_cons, tokenStr_eq] at hb
        | cons x2 a1 =>
          injection hsplit with hx2 hsplit
          cases a1 with
          | nil =>
            simp only [List.append_eq, List.nil_append] at hsplit
            rw [← hsplit] at hb
            simp [List.cons_append, begins_cons, tokenStr_eq] at hb
          | cons x3 a1 =>
            injection hsplit with hx3 hsplit
            cases a1 with
            | nil =>
              simp only [List.append_eq, List.nil_append] at hsplit
              rw [← hsplit] at hb
              simp [List.cons_append, begins_cons, tokenStr_eq] at hb
            | cons x4 a1 =>
              injection hsplit with hx4 hsplit
              cases a1 with
              | nil =>
                simp only [List.append_eq, List.nil_append] at hsplit
                rw [← hsplit] at hb
                simp [List.cons_append, begins_cons, tokenStr_eq] at hb
              | cons x5 a1 =>
                injection hsplit with hx5 hsplit
                rcases List.append_eq_append_iff.mp hsplit with
                  ⟨t, ht1, ht2⟩ | ⟨c2, hc1, hc2⟩
                · cases t with
                  | nil =>
                    simp only [List.append_eq, List.nil_append] at ht2
                    rw [← ht2] at hb
                    rw [tokenStr_eq] at hb
                    simp only [List.cons_append, begins_cons, Bool.and_eq_true,
                      decide_eq_true_eq, List.nil_append] at hb
                    have hb2 := hb.2.2
                    rw [TAG_not_begins pr.2 _ (j + 1) rest hpr.2] at hb2
                    exact Bool.noConfusion hb2
                  | cons u1 t =>
                    injection ht2 with hu1 ht2
                    cases t with
                    | nil =>
                      simp only [List.append_eq, List.nil_append] at ht2
                      rw [← ht2] at hb
                      rw [tokenStr_eq] at hb
                      simp only [List.cons_append, begins_cons, Bool.and_eq_true,
                        decide_eq_true_eq, List.nil_append] at hb
                      have hb2 := hb.2
                      rw [undTAG_not_begins pr.2 _ (j + 1) rest hpr.1] at hb2
                      exact Bool.noConfusion hb2
                    | cons u2 t =>
                      injection ht2 with hu2 ht2
                      cases t with
                      | nil => exact hne ht2.symm
                      | cons u3 t => exact List.noConfusion ht2
                · cases c2 with
                  | nil =>
                    simp only [List.append_eq, List.nil_append] at hc2
                    rw [hc2] at hb
                    rw [tokenStr_eq] at hb
                    simp only [List.cons_append, begins_cons, Bool.and_eq_true,
                      decide_eq_true_eq, List.nil_append] at hb
                    have hb2 := hb.2.2
                    rw [TAG_not_begins pr.2 _ (j + 1) rest hpr.2] at hb2
                    exact Bool.noConfusion hb2
                  | cons d c2 =>
                    have hd : isDig d = true := by
                      apply natChars_digits j
                      rw [hc1]
                      exact List.mem_append_right a1 (List.mem_cons_self d c2)
                    rw [hc2] at hb
                    rw [List.cons_append, List.cons_append] at hb
                    rw [tok_begins_head k _ (isDig_ne_und hd)] at hb
                    exact Bool.noConfusion hb
    · rcases hasSub_split (tokenStr k) pr.2 _ h2 with ⟨a1, a2, hsplit, hne, hb⟩ | h3
      · cases a2 with
        | nil => exact hne rfl
        | cons c a3 =>
          have hc : c ∈ pr.2 := by
            rw [hsplit]
            exact List.mem_append_right a1 (List.mem_cons_self c a3)
          rw [List.cons_append] at hb
          rw [tok_begins_head k _ (fun he => hpr.1 (he ▸ hc))] at hb
          exact Bool.noConfusion hb
      · have := ih (j + 1) k (by omega) (fun q hq => hps q (List.mem_cons_of_mem pr hq))
        rw [h3] at this
        exact Bool.noConfusion this

theorem no_tok_seg_pend (seg : Str) (pairs : List (Str × Str)) (j k : Nat)
    (hk : k < j) (hseg : '_' ∉ seg)
    (hps : ∀ pr ∈ pairs, '_' ∉ pr.2 ∧ hasSub tagS pr.2 = false) :
    hasSub (tokenStr k) (seg ++ pendStr j pairs) = false := by
  rw [Bool.eq_false_iff]
  intro h
  rcases hasSub_split (tokenStr k) seg _ h with ⟨a1, a2, hsplit, hne, hb⟩ | h2
  · cases a2 with
    | nil => exact hne rfl
    | cons c a3 =>
      have hc : c ∈ seg := by
        rw [hsplit]
        exact List.mem_append_right a1 (List.mem_cons_self c a3)
      rw [List.cons_append] at hb
      rw [tok_begins_head k _ (fun he => hseg (he ▸ hc))] at hb
      exact Bool.noConfusion hb
  · have := no_tok_pend pairs j k hk hps
    rw [h2] at this
    exact Bool.noConfusion this

theorem replaceAll_skip (pat rep : Str) (hp : pat ≠ []) :
    ∀ (A B : Str),
    (∀ A1 A2, A = A1 ++ A2 → A2 ≠ [] → begins pat (A2 ++ B) = false) →
    replaceAll (A ++ B) pat rep = A ++ replaceAll B pat rep := by
  intro A
  induction A with
  | nil =>
    intro B _
    rfl
  | cons c A2 ih =>
    intro B hA
    rw [List.cons_append, replaceAll_step pat rep hp]
    have hb : begins pat (c :: (A2 ++ B)) = false := by
      have := hA [] (c :: A2) rfl (by simp)
      rw [List.cons_append] at this
      exact this
    rw [if_neg (by rw [hb]; simp)]
    rw [ih B (fun A1 A3 he hne => hA (c :: A1) A3 (by rw [he]; rfl) hne)]
    rfl

theorem replaceAll_hit (pat rep s : Str) (hp : pat ≠ [])
    (hb : begins pat s = true) :
    replaceAll s pat rep = rep ++ replaceAll (s.drop pat.length) pat rep := by
  cases s with
  | nil =>
    cases pat with
    | nil => exact absurd rfl hp
    | cons p ps => exact Bool.noConfusion hb
  | cons a rest =>
    rw [replaceAll_step pat rep hp, if_pos hb]

theorem restoreGo_decomp : ∀ (pairs : List (Str × Str)) (k : Nat) (X : Str),
    '_' ∉ X →
    (∀ pr ∈ pairs, '_' ∉ pr.1 ∧ '_' ∉ pr.2 ∧ hasSub tagS pr.2 = false) →
    restoreGo (X ++ pendStr k pairs) k (pairs.map (fun pr => pr.1)) =
      X ++ origStr pairs := by
  intro pairs
  induction pairs with
  | nil =>
    intro k X _ _
    rfl
  | cons pr rest ih =>
    intro k X hX hps
    have hpr := hps pr (List.mem_cons_self pr rest)
    show restoreGo (replaceAll (X ++ pendStr k (pr :: rest)) (tokenStr k) pr.1)
        (k + 1) (rest.map (fun q => q.1)) = X ++ origStr (pr :: rest)
    have hpend : X ++ pendStr k (pr :: rest) =
        X ++ (tokenStr k ++ (pr.2 ++ pendStr (k + 1) rest)) := rfl
    have hskip : replaceAll (X ++ (tokenStr k ++ (pr.2 ++ pendStr (k + 1) rest)))
        (tokenStr k) pr.1 =
        X ++ replaceAll (tokenStr k ++ (pr.2 ++ pendStr (k + 1) rest))
          (tokenStr k) pr.1 := by
      apply replaceAll_skip (tokenStr k) pr.1 (tok_ne_nil k)
      intro A1 A2 hA hne
      cases A2 with
      | nil => exact absurd rfl hne
      | cons c A3 =>
        have hc : c ∈ X := by
          rw [hA]
          exact List.mem_append_right A1 (List.mem_cons_self c A3)
        rw [List.cons_append]
        exact tok_begins_head k _ (fun he => hX (he ▸ hc))
    have hocc : hasSub (tokenStr k) (pr.2 ++ pendStr (k + 1) rest) = false :=
      no_tok_seg_pend pr.2 rest (k + 1) k (Nat.lt_succ_self k) hpr.2.1
        (fun q hq => ⟨(hps q (List.mem_cons_of_mem pr hq)).2.1,
          (hps q (List.mem_cons_of_mem pr hq)).2.2⟩)
    have hhit : replaceAll (tokenStr k ++ (pr.2 ++ pendStr (k + 1) rest))
        (tokenStr k) pr.1 = pr.1 ++ (pr.2 ++ pendStr (k + 1) rest) := by
      rw [replaceAll_hit _ _ _ (tok_ne_nil k) (begins_append_self _ _),
        List.drop_left, replaceAll_no_occ _ _ (tok_ne_nil k) _ hocc]
    rw [hpend, hskip, hhit]
    have heq : X ++ (pr.1 ++ (pr.2 ++ pendStr (k + 1) rest)) =
        (X ++ pr.1 ++ pr.2) ++ pendStr (k + 1) rest := by
      simp [List.append_assoc]
    rw [heq]
    have hX2 : '_' ∉ X ++ pr.1 ++ pr.2 := by
      intro hmem
      rcases List.mem_append.mp hmem with hmem2 | hmem2
      · rcases List.mem_append.mp hmem2 with hmem3 | hmem3
        · exact hX hmem3
        · exact hpr.1 hmem3
      · exact hpr.2.1 hmem2
    rw [ih (k + 1) (X ++ pr.1 ++ pr.2) hX2
      (fun q hq => hps q (List.mem_cons_of_mem pr hq))]
    show X ++ pr.1 ++ pr.2 ++ origStr rest = X ++ (pr.1 ++ (pr.2 ++ origStr rest))
    simp [List.append_assoc]

theorem protect_decomp : ∀ (fuel : Nat) (s : Str) (k : Nat), s.length ≤ fuel →
    ∃ seg0 pairs, s = seg0 ++ origStr pairs ∧
      protectGo fuel s k = (seg0 ++ pendStr k pairs,
        pairs.map (fun pr => pr.1)) := by
  intro fuel
  induction fuel with
  | zero =>
    intro s k hle
    have hs : s = [] := List.length_eq_zero.mp (Nat.le_zero.mp hle)
    subst hs
    exact ⟨[], [], rfl, rfl⟩
  | succ fuel ih =>
    intro s k hle
    cases s with
    | nil => exact ⟨[], [], rfl, rfl⟩
    | cons c rest =>
      simp only [List.length_cons] at hle
      by_cases hc : c = '<'
      · subst hc
        cases hf : findGt rest with
        | some p =>
          obtain ⟨hre, hrl, hbne⟩ := findGt_shape (b := p.1) (r := p.2)
            (by rw [hf])
          obtain ⟨seg0, pairs, hs1, hp1⟩ := ih p.2 (k + 1) (by omega)
          refine ⟨[], ('<' :: (p.1 ++ ['>']), seg0) :: pairs, ?_, ?_⟩
          · show '<' :: rest =
              [] ++ (('<' :: (p.1 ++ ['>'])) ++ (seg0 ++ origStr pairs))
            rw [List.nil_append, hre, hs1]
            simp
          · have hstep : protectGo (fuel + 1) ('<' :: rest) k =
                (tokenStr k ++ (protectGo fuel p.2 (k + 1)).1,
                  ('<' :: (p.1 ++ ['>'])) :: (protectGo fuel p.2 (k + 1)).2) := by
              rw [protectGo, if_pos rfl, hf]
            rw [hstep, hp1]
            rfl
        | none =>
          obtain ⟨seg0, pairs, hs1, hp1⟩ := ih rest k (by omega)
          refine ⟨'<' :: seg0, pairs, ?_, ?_⟩
          · rw [List.cons_append, ← hs1]
          · have hstep : protectGo (fuel + 1) ('<' :: rest) k =
                ('<' :: (protectGo fuel rest k).1, (protectGo fuel rest k).2) := by
              rw [protectGo, if_pos rfl, hf]
            rw [hstep, hp1]
            rfl
      · obtain ⟨seg0, pairs, hs1, hp1⟩ := ih rest k (by omega)
        refine ⟨c :: seg0, pairs, ?_, ?_⟩
        · rw [List.cons_append, ← hs1]
        · have hstep : protectGo (fuel + 1) (c :: rest) k =
              (c :: (protectGo fuel rest k).1, (protectGo fuel rest k).2) := by
            rw [protectGo, if_neg hc]
          rw [hstep, hp1]
          rfl

theorem origStr_infix : ∀ (pairs : List (Str × Str)) (pr : Str × Str),
    pr ∈ pairs →
    (∃ a b, origStr pairs = a ++ (pr.1 ++ b)) ∧
      (∃ a b, origStr pairs = a ++ (pr.2 ++ b)) := by
  intro pairs
  induction pairs with
  | nil =>
    intro pr hpr
    exact absurd hpr (List.not_mem_nil pr)
  | cons q rest ih =>
    intro pr hpr
    rcases List.mem_cons.mp hpr with he | hm
    · subst he
      constructor
      · exact ⟨[], pr.2 ++ origStr rest, rfl⟩
      · exact ⟨pr.1, origStr rest, rfl⟩
    · obtain ⟨⟨a1, b1, h1⟩, ⟨a2, b2, h2⟩⟩ := ih pr hm
      constructor
      · refine ⟨q.1 ++ q.2 ++ a1, b1, ?_⟩
        show q.1 ++ (q.2 ++ origStr rest) = _
        rw [h1]
        simp [List.append_assoc]
      · refine ⟨q.1 ++ q.2 ++ a2, b2, ?_⟩
        show q.1 ++ (q.2 ++ origStr rest) = _
        rw [h2]
        simp [List.append_assoc]

/-- **C3 counterexample.** If the input itself contains the text
`__TAG0__`, the protected text contains that placeholder twice (once
from the input, once standing for `<i>`), and restoration substitutes
both occurrences: the identity round-trip returns `<i><i>`, not the
original string.  So the claim does not hold for every input. -/
theorem claim_C3_counterexample :
    restore_tags (protect_tags (("__TAG0__<i>").data)).1
        (protect_tags (("__TAG0__<i>").data)).2 = ("<i><i>").data ∧
    ("<i><i>").data ≠ ("__TAG0__<i>").data :=
  ⟨by decide, by decide⟩

/-- **C3 amended.** The protect → identity-translate → restore round-trip
is exact for every input that contains neither the letter sequence `TAG`
nor any underscore — in particular for the spec example
`Nice <i>day</i> isn't it`.  (Without that proviso the round-trip can
fail, see the counterexample: a literal `__TAG0__` in the input is
captured by the restoration's global replace.) -/
theorem claim_C3_amended (s : Str)
    (hTag : hasSub (("TAG").data) s = false) (hUnd : '_' ∉ s) :
    restore_tags (protect_tags s).1 (protect_tags s).2 = s := by
  have hTag2 : hasSub tagS s = false := hTag
  obtain ⟨seg0, pairs, hs, hprot⟩ :=
    protect_decomp s.length s 0 (Nat.le_refl _)
  have hps : ∀ pr ∈ pairs, '_' ∉ pr.1 ∧ '_' ∉ pr.2 ∧
      hasSub tagS pr.2 = false := by
    intro pr hpr
    obtain ⟨⟨a1, b1, h1⟩, ⟨a2, b2, h2⟩⟩ := origStr_infix pairs pr hpr
    refine ⟨?_, ?_, ?_⟩
    · intro hm
      apply hUnd
      rw [hs, h1]
      exact List.mem_append_right seg0
        (List.mem_append_right a1 (List.mem_append_left b1 hm))
    · intro hm
      apply hUnd
      rw [hs, h2]
      exact List.mem_append_right seg0
        (List.mem_append_right a2 (List.mem_append_left b2 hm))
    · rw [Bool.eq_false_iff]
      intro hsub
      have hmono := hasSub_mono (seg0 ++ a2) b2 hsub
      have hseq : (seg0 ++ a2) ++ pr.2 ++ b2 = s := by
        rw [hs, h2]
        simp [List.append_assoc]
      rw [hseq, hTag2] at hmono
      exact Bool.noConfusion hmono
  have hseg0 : '_' ∉ seg0 := by
    intro hm
    apply hUnd
    rw [hs]
    exact List.mem_append_left _ hm
  show restoreGo (protect_tags s).1 0 (protect_tags s).2 = s
  rw [show protect_tags s = protectGo s.length s 0 from rfl, hprot]
  rw [restoreGo_decomp pairs 0 seg0 hseg0 hps]
  exact hs.symm

/-- Witness for the amended C3: the spec example line round-trips. -/
theorem claim_C3_amended_witness :
    hasSub (("TAG").data) (("Nice <i>day</i> isn\x27t it").data) = false ∧
    restore_tags (protect_tags (("Nice <i>day</i> isn\x27t it").data)).1
        (protect_tags (("Nice <i>day</i> isn\x27t it").data)).2 =
      ("Nice <i>day</i> isn\x27t it").data :=
  ⟨by decide, claim_C3_amended _ (by decide) (by decide)⟩

end Srtxlate
